import Mathlib

/-!
# Verification of the VacationDistri document-processing core

Shallow embedding of `src/VacationDistri/text_anonymizer.py`,
`src/VacationDistri/llm_restructurer.py` and
`src/VacationDistri/document_processor.py`, together with proofs about the
claims of the specification.

Modelling conventions:
* Python strings are modelled as `List Char` (Python indexes and slices by
  code point, as does `List Char`).
* Python dicts are modelled as insertion-ordered association lists; `aset`
  mirrors `d[k] = v` (update in place if the key exists, else append) and
  `alookup` mirrors `d.get(k)`.
* The spaCy pipeline (`self.nlp`) is an external collaborator; it is modelled
  as an optional function from a text to either an exception or a list of
  entity spans (`doc.ents`), mirroring `start_char`/`end_char`/`text`/`label_`.
* Exceptions are modelled with `Except String`.
-/

/-- Association-list lookup, mirroring Python `dict.get` (keys are unique in
all dicts built by the code, so scan order is irrelevant for lookup). -/
def alookup {κ β : Type} [DecidableEq κ] : List (κ × β) → κ → Option β
  | [], _ => none
  | (k, v) :: rest, key => if k = key then some v else alookup rest key

/-- Association-list assignment, mirroring Python `d[k] = v` on an
insertion-ordered dict: update in place if present, append otherwise. -/
def aset {κ β : Type} [DecidableEq κ] : List (κ × β) → κ → β → List (κ × β)
  | [], k, v => [(k, v)]
  | (k', v') :: rest, k, v =>
    if k' = k then (k, v) :: rest else (k', v') :: aset rest k v

/-- Python `d.update(m)`: assign every entry of `m` into `d` in order. -/
def dictUpdate {κ β : Type} [DecidableEq κ] (d : List (κ × β)) (m : List (κ × β)) :
    List (κ × β) :=
  m.foldl (fun d' kv => aset d' kv.1 kv.2) d

/-- Map with a threaded accumulator (used to model loops that both mutate
shared state and rebuild a list in place). -/
def mapAccum {σ α β : Type} (f : σ → α → σ × β) : σ → List α → σ × List β
  | s, [] => (s, [])
  | s, a :: as' =>
    let (s', b) := f s a
    let (s'', bs) := mapAccum f s' as'
    (s'', b :: bs)

/-- ASCII whitespace as stripped by Python `str.strip()` (the further Unicode
space code points that Python also strips are not used by any input in this
development). -/
def isPySpace (c : Char) : Bool :=
  c = ' ' || c = '\t' || c = '\n' || c = '\r' || c = '\x0b' || c = '\x0c'

/-- One entity span as produced by the NER collaborator: `ent.start_char`,
`ent.end_char`, `ent.text`, `ent.label_` (`end` is a Lean keyword, hence
`stop`). -/
structure EntitySpan where
  start : Nat
  stop : Nat
  text : List Char
  label : List Char
deriving DecidableEq, Repr

/-- The NER collaborator: `self.nlp(text)` yielding `doc.ents`, or raising. -/
def Ner : Type := List Char → Except String (List EntitySpan)

/-- `session_stats` of `TextAnonymizer`. -/
structure SessionStats where
  total_entities : Nat
  entity_types : List (List Char × Nat)
  unique_entities : Nat
deriving DecidableEq, Repr

/-- The mutable dictionaries and counters of a `TextAnonymizer` instance
(the `nlp` collaborator and `spacy_model` name are passed separately). -/
structure MapperState where
  mapping_dict : List (List Char × List Char)
  entity_to_label : List (List Char × List Char)
  counter : List (List Char × Nat)
  session_stats : SessionStats
deriving DecidableEq, Repr

/-- The state of a freshly constructed `TextAnonymizer` (also the state after
`reset_session`). -/
def initMapperState : MapperState :=
  { mapping_dict := [], entity_to_label := [], counter := [],
    session_stats := { total_entities := 0, entity_types := [], unique_entities := 0 } }

/-- `f"{ent_label}_{n}"`. -/
def labelNo (entLabel : List Char) (n : Nat) : List Char :=
  entLabel ++ '_' :: (Nat.repr n).data

/-- Insert a span into a start-descending list, keeping earlier spans before
later spans of equal start (Python's `list.sort(key=..., reverse=True)` is
stable). -/
def insertSpanDesc (e : EntitySpan) : List EntitySpan → List EntitySpan
  | [] => [e]
  | x :: xs => if e.start < x.start then x :: insertSpanDesc e xs else e :: x :: xs

/-- `entities.sort(key=lambda x: x['start'], reverse=True)`. -/
def sortByStartDesc (l : List EntitySpan) : List EntitySpan :=
  l.foldr insertSpanDesc []

/-- The body of the replacement loop of `anonymize_text` for one entity:
label lookup/minting, local-mapping update, text slice replacement, and
session statistics. -/
def applyEntity (acc : MapperState × List Char × List (List Char × List Char))
    (e : EntitySpan) : MapperState × List Char × List (List Char × List Char) :=
  let (st, txt, lm) := acc
  let (st', anonLabel) :=
    match alookup st.entity_to_label e.text with
    | some lbl => (st, lbl)
    | none =>
      let c := (alookup st.counter e.label).getD 0 + 1
      let lbl := labelNo e.label c
      ({ st with
          counter := aset st.counter e.label c,
          entity_to_label := aset st.entity_to_label e.text lbl,
          mapping_dict := aset st.mapping_dict lbl e.text,
          session_stats := { st.session_stats with
            unique_entities := st.session_stats.unique_entities + 1 } }, lbl)
  let lm' := aset lm anonLabel e.text
  let txt' := txt.take e.start ++ anonLabel ++ txt.drop e.stop
  let st'' := { st' with session_stats := { st'.session_stats with
      total_entities := st'.session_stats.total_entities + 1,
      entity_types := aset st'.session_stats.entity_types e.label
        ((alookup st'.session_stats.entity_types e.label).getD 0 + 1) } }
  (st'', txt', lm')

/-- `TextAnonymizer.anonymize_text`: returns the updated mapper state, the
anonymized text and the local mapping. -/
def anonymize_text (nlp : Option Ner) (st : MapperState) (text : List Char) :
    MapperState × List Char × List (List Char × List Char) :=
  match nlp with
  | none => (st, text, [])
  | some ner =>
    if text.isEmpty || text.all isPySpace then (st, text, [])
    else
      match ner text with
      | .error _ => (st, text, [])
      | .ok ents => (sortByStartDesc ents).foldl applyEntity (st, text, [])

/-- Non-overlapping left-to-right replacement of every occurrence of a
non-empty pattern, as performed by Python `str.replace` (the replacement text
is not rescanned within one call). Recursion is bounded by a fuel argument so
that the definition is structural (the fuel never runs out when it starts at
the length of the text, since each step consumes at least one character). -/
def replaceAllFuel (pat repl : List Char) : Nat → List Char → List Char
  | _, [] => []
  | 0, txt => txt
  | fuel + 1, c :: rest =>
    if pat.isPrefixOf (c :: rest) && !pat.isEmpty then
      repl ++ replaceAllFuel pat repl fuel (rest.drop (pat.length - 1))
    else
      c :: replaceAllFuel pat repl fuel rest

/-- Replacement of every occurrence of a non-empty pattern. -/
def replaceAll (pat repl txt : List Char) : List Char :=
  replaceAllFuel pat repl txt.length txt

/-- Python `text.replace(pat, repl)` including the empty-pattern case, where
Python inserts `repl` before every character and at the end. -/
def pyReplace (pat repl txt : List Char) : List Char :=
  if pat.isEmpty then repl ++ txt.foldr (fun c acc => c :: (repl ++ acc)) []
  else replaceAll pat repl txt

/-- Insert into a length-descending list of labels, keeping earlier labels
before later labels of equal length (Python's `sorted(..., key=len,
reverse=True)` is stable). -/
def insertLenDesc (a : List Char) : List (List Char) → List (List Char)
  | [] => [a]
  | x :: xs => if a.length < x.length then x :: insertLenDesc a xs else a :: x :: xs

/-- `sorted(mapping.keys(), key=len, reverse=True)`. -/
def sortByLenDesc (l : List (List Char)) : List (List Char) :=
  l.foldr insertLenDesc []

/-- `TextAnonymizer.reverse_anonymization`: substitute original texts back for
labels, longest label first. -/
def reverse_anonymization (st : MapperState) (anonymized_text : List Char)
    (mapping : Option (List (List Char × List Char))) : List Char :=
  let m := mapping.getD st.mapping_dict
  (sortByLenDesc (m.map Prod.fst)).foldl
    (fun acc lbl => pyReplace lbl ((alookup m lbl).getD []) acc) anonymized_text

/-! ## Basic lemmas about the dictionary model -/

theorem alookup_aset_self {κ β : Type} [DecidableEq κ] (d : List (κ × β)) (k : κ) (v : β) :
    alookup (aset d k v) k = some v := by
  induction d with
  | nil => simp [aset, alookup]
  | cons kv rest ih =>
    obtain ⟨k', v'⟩ := kv
    by_cases hk : k' = k <;> simp [aset, alookup, hk, ih]

/-- Reduction of `anonymize_text` when the NER collaborator reports exactly
one span. -/
theorem anonymize_text_single (ner : Ner) (st : MapperState) (e : EntitySpan)
    (t : List Char) (hner : ner t = .ok [e])
    (ht : (t.isEmpty || t.all isPySpace) = false) :
    anonymize_text (some ner) st t = applyEntity (st, t, []) e := by
  simp [anonymize_text, ht, hner, sortByStartDesc, insertSpanDesc]

/-! ## C2: the worked example of the spec -/

def c2text : List Char := "Anna Schmidt traf Max Müller.".data

def c2span1 : EntitySpan := ⟨0, 12, "Anna Schmidt".data, "PERSON".data⟩

def c2span2 : EntitySpan := ⟨17, 27, "Max Müller".data, "PERSON".data⟩

def c2ner : Ner := fun _ => .ok [c2span1, c2span2]

def c2nerRev : Ner := fun _ => .ok [c2span2, c2span1]

/-- C2, counterexample: in a fresh session, the text
`"Anna Schmidt traf Max Müller."` with PERSON spans `(0,12)` and `(17,27)`
does *not* rewrite to `"PERSON_1 traf PERSON_2."` with local mapping
`{PERSON_1 ↦ "Anna Schmidt", PERSON_2 ↦ "Max Müller"}`: spans are processed
in descending start order, so the rightmost span is labelled first. -/
theorem anonymize_text_example_counterexample :
    (anonymize_text (some c2ner) initMapperState c2text).2.1
      ≠ "PERSON_1 traf PERSON_2.".data
    ∧ (anonymize_text (some c2ner) initMapperState c2text).2.2
      ≠ [("PERSON_1".data, "Anna Schmidt".data),
         ("PERSON_2".data, "Max Müller".data)] :=
  ⟨by decide, by decide⟩

/-- C2, amended: `anonymize_text` orders spans by start descending (the same
output results whichever order the NER reports the spans in) and rewrites by
slicing `text[:start] ++ label ++ text[end:]`; on the example input of the
claim the fresh-session output is `"PERSON_2 trafPERSON_1r."` with local
mapping `{PERSON_1 ↦ "Max Müller", PERSON_2 ↦ "Anna Schmidt"}` (the rightmost
span is processed first and receives `PERSON_1`, and the given offsets
`(17,27)` select the slice `" Max Mülle"`, leaving the trailing `"r."`). -/
theorem anonymize_text_example_amended :
    (anonymize_text (some c2ner) initMapperState c2text).2.1
      = "PERSON_2 trafPERSON_1r.".data
    ∧ (anonymize_text (some c2ner) initMapperState c2text).2.2
      = [("PERSON_1".data, "Max Müller".data),
         ("PERSON_2".data, "Anna Schmidt".data)]
    ∧ anonymize_text (some c2nerRev) initMapperState c2text
      = anonymize_text (some c2ner) initMapperState c2text :=
  ⟨by decide, by decide, by decide⟩

/-! ## C10: the silent fallback of `anonymize_text` -/

/-- C10: `anonymize_text` is total; when the NER analysis raises, the
exception is swallowed and the call returns the original text with an empty
local mapping and an unchanged state — exactly the output produced when the
NER finds no entities, and also exactly the output when the NER capability is
absent altogether, so a caller cannot distinguish the three situations. -/
theorem anonymize_text_total_fallback (st : MapperState) (text : List Char)
    (ner : Ner) (e : String) (h : ner text = .error e) :
    anonymize_text (some ner) st text = (st, text, [])
    ∧ anonymize_text (some ner) st text
      = anonymize_text (some fun _ => .ok []) st text
    ∧ anonymize_text none st text = (st, text, []) := by
  cases hcond : (text.isEmpty || text.all isPySpace) <;>
    simp [anonymize_text, hcond, h, sortByStartDesc]

def c10ner : Ner := fun _ => .error "spacy pipeline raised"

theorem anonymize_text_total_fallback_witness :
    c10ner "Anna traf Max.".data = .error "spacy pipeline raised"
    ∧ anonymize_text (some c10ner) initMapperState "Anna traf Max.".data
      = (initMapperState, "Anna traf Max.".data, []) :=
  ⟨rfl, (anonymize_text_total_fallback initMapperState "Anna traf Max.".data
      c10ner "spacy pipeline raised" rfl).1⟩

/-! ## C4: label reuse across two calls of the same session -/

/-- C4: two `anonymize_text` calls in the same mapper session on two texts in
which the NER recognises the identical entity string `s` (not seen before in
the session) assign the identical label in both calls, and
`session_stats['unique_entities']` increases exactly once across the two
calls: the first call mints the label and the second reuses it. -/
theorem anonymize_text_label_reuse (st0 : MapperState) (ner : Ner)
    (t1 t2 s entLabel1 entLabel2 : List Char) (p1 q1 p2 q2 : Nat)
    (h1 : ner t1 = .ok [⟨p1, q1, s, entLabel1⟩])
    (h2 : ner t2 = .ok [⟨p2, q2, s, entLabel2⟩])
    (hnew : alookup st0.entity_to_label s = none)
    (ht1 : (t1.isEmpty || t1.all isPySpace) = false)
    (ht2 : (t2.isEmpty || t2.all isPySpace) = false) :
    (anonymize_text (some ner) st0 t1).2.2
      = [(labelNo entLabel1 ((alookup st0.counter entLabel1).getD 0 + 1), s)]
    ∧ (anonymize_text (some ner) (anonymize_text (some ner) st0 t1).1 t2).2.2
      = [(labelNo entLabel1 ((alookup st0.counter entLabel1).getD 0 + 1), s)]
    ∧ (anonymize_text (some ner) st0 t1).1.session_stats.unique_entities
      = st0.session_stats.unique_entities + 1
    ∧ (anonymize_text (some ner) (anonymize_text (some ner) st0 t1).1
        t2).1.session_stats.unique_entities
      = st0.session_stats.unique_entities + 1 := by
  rw [anonymize_text_single ner st0 _ t1 h1 ht1]
  have hfst :
      (applyEntity (st0, t1, []) ⟨p1, q1, s, entLabel1⟩).1.entity_to_label
        = aset st0.entity_to_label s
            (labelNo entLabel1 ((alookup st0.counter entLabel1).getD 0 + 1)) := by
    simp [applyEntity, hnew]
  rw [anonymize_text_single ner _ _ t2 h2 ht2]
  refine ⟨by simp [applyEntity, hnew, aset], ?_, by simp [applyEntity, hnew], ?_⟩
  · simp [applyEntity, hnew, hfst, alookup_aset_self, aset]
  · simp [applyEntity, hnew, hfst, alookup_aset_self]


/-! ## C1: resolve / reverseResolve round trip -/

theorem isPrefixOf_append_self (l r : List Char) : l.isPrefixOf (l ++ r) = true := by
  induction l with
  | nil => cases r <;> rfl
  | cons a as ih => simp [List.isPrefixOf, ih]

theorem isPrefixOf_nil_of_ne (l : List Char) (h : l ≠ []) : l.isPrefixOf [] = false := by
  cases l with
  | nil => exact absurd rfl h
  | cons a as => rfl

theorem isPrefixOf_drop_append (pat u v : List Char) (i : Nat) :
    pat.isPrefixOf (v.drop i) = pat.isPrefixOf ((u ++ v).drop (u.length + i)) := by
  rw [← List.drop_drop, List.drop_left]

theorem replaceAllFuel_congr (pat repl : List Char) :
    ∀ fuel fuel' txt, txt.length ≤ fuel → txt.length ≤ fuel' →
      replaceAllFuel pat repl fuel txt = replaceAllFuel pat repl fuel' txt := by
  intro fuel
  induction fuel with
  | zero =>
    intro fuel' txt h _
    have : txt = [] := List.length_eq_zero.mp (Nat.le_zero.mp h)
    subst this
    cases fuel' <;> rfl
  | succ fuel ih =>
    intro fuel' txt h h'
    cases txt with
    | nil => cases fuel' <;> rfl
    | cons c rest =>
      cases fuel' with
      | zero => simp at h'
      | succ fuel' =>
        simp only [replaceAllFuel]
        by_cases hc : (pat.isPrefixOf (c :: rest) && !pat.isEmpty) = true
        · rw [hc]
          simp only [if_true]
          have hlen : (rest.drop (pat.length - 1)).length ≤ fuel := by
            simp only [List.length_drop]
            simp only [List.length_cons] at h
            omega
          have hlen' : (rest.drop (pat.length - 1)).length ≤ fuel' := by
            simp only [List.length_drop]
            simp only [List.length_cons] at h'
            omega
          rw [ih fuel' _ hlen hlen']
        · rw [Bool.not_eq_true] at hc
          rw [hc]
          simp only [Bool.false_eq_true, if_false]
          have hlen : rest.length ≤ fuel := by
            simp only [List.length_cons] at h; omega
          have hlen' : rest.length ≤ fuel' := by
            simp only [List.length_cons] at h'; omega
          rw [ih fuel' _ hlen hlen']

/-- If the pattern occurs nowhere in the text, `replaceAll` is the
identity. -/
theorem replaceAllFuel_no_occur (pat repl : List Char) :
    ∀ fuel txt, txt.length ≤ fuel →
      (∀ i, pat.isPrefixOf (txt.drop i) = false) →
      replaceAllFuel pat repl fuel txt = txt := by
  intro fuel
  induction fuel with
  | zero =>
    intro txt h _
    have : txt = [] := List.length_eq_zero.mp (Nat.le_zero.mp h)
    subst this
    rfl
  | succ fuel ih =>
    intro txt h hno
    cases txt with
    | nil => rfl
    | cons c rest =>
      have h0 := hno 0
      simp only [List.drop_zero] at h0
      simp only [replaceAllFuel, h0, Bool.false_and, Bool.false_eq_true, if_false]
      have : rest.length ≤ fuel := by
        simp only [List.length_cons] at h; omega
      rw [ih rest this (fun i => by
        have := hno (i + 1)
        rwa [List.drop_succ_cons] at this)]

theorem replaceAll_no_occur (pat repl txt : List Char)
    (hno : ∀ i, pat.isPrefixOf (txt.drop i) = false) :
    replaceAll pat repl txt = txt :=
  replaceAllFuel_no_occur pat repl txt.length txt (Nat.le_refl _) hno

/-- If the pattern does not occur strictly before the designated occurrence,
`replaceAll` substitutes that occurrence and proceeds on the tail. -/
theorem replaceAllFuel_decomp (pat repl : List Char) (hp : pat ≠ []) :
    ∀ x fuel y, (x ++ (pat ++ y)).length ≤ fuel →
      (∀ i, i < x.length → pat.isPrefixOf ((x ++ (pat ++ y)).drop i) = false) →
      replaceAllFuel pat repl fuel (x ++ (pat ++ y))
        = x ++ (repl ++ replaceAll pat repl y) := by
  intro x
  induction x with
  | nil =>
    intro fuel y hfuel _
    obtain ⟨p, pt, rfl⟩ : ∃ p pt, pat = p :: pt := by
      cases pat with
      | nil => exact absurd rfl hp
      | cons p pt => exact ⟨p, pt, rfl⟩
    cases fuel with
    | zero =>
      simp only [List.nil_append, List.cons_append, List.length_cons] at hfuel
      omega
    | succ fuel =>
      have hy : y.length ≤ fuel := by
        simp only [List.nil_append, List.cons_append, List.length_cons,
          List.length_append] at hfuel
        omega
      have hpre : (p :: pt).isPrefixOf (p :: (pt ++ y)) = true := by
        have := isPrefixOf_append_self (p :: pt) y
        rwa [List.cons_append] at this
      have hstep : replaceAllFuel (p :: pt) repl (fuel + 1) (p :: (pt ++ y))
          = if (p :: pt).isPrefixOf (p :: (pt ++ y)) && !(p :: pt).isEmpty then
              repl ++ replaceAllFuel (p :: pt) repl fuel
                ((pt ++ y).drop ((p :: pt).length - 1))
            else p :: replaceAllFuel (p :: pt) repl fuel (pt ++ y) := rfl
      show replaceAllFuel (p :: pt) repl (fuel + 1) (p :: (pt ++ y))
          = [] ++ (repl ++ replaceAll (p :: pt) repl y)
      rw [hstep, hpre]
      simp only [List.isEmpty_cons, Bool.not_false, Bool.and_self, if_true,
        List.length_cons, Nat.add_sub_cancel, List.drop_left]
      rw [replaceAllFuel_congr (p :: pt) repl fuel y.length y hy (Nat.le_refl _)]
      rfl
  | cons d x' ih =>
    intro fuel y hfuel hno
    cases fuel with
    | zero =>
      simp only [List.cons_append, List.length_cons] at hfuel
      omega
    | succ fuel =>
      have h0 := hno 0 (by simp)
      rw [List.drop_zero, List.cons_append] at h0
      have hstep : replaceAllFuel pat repl (fuel + 1) (d :: (x' ++ (pat ++ y)))
          = if pat.isPrefixOf (d :: (x' ++ (pat ++ y))) && !pat.isEmpty then
              repl ++ replaceAllFuel pat repl fuel
                ((x' ++ (pat ++ y)).drop (pat.length - 1))
            else d :: replaceAllFuel pat repl fuel (x' ++ (pat ++ y)) := rfl
      show replaceAllFuel pat repl (fuel + 1) (d :: (x' ++ (pat ++ y)))
          = d :: (x' ++ (repl ++ replaceAll pat repl y))
      rw [hstep, h0]
      simp only [Bool.false_and, Bool.false_eq_true, if_false]
      congr 1
      exact ih fuel y
        (by simp only [List.cons_append, List.length_cons] at hfuel; omega)
        (fun i hi => by
          have := hno (i + 1) (by simp only [List.length_cons]; omega)
          rwa [List.cons_append, List.drop_succ_cons] at this)

theorem replaceAll_decomp (pat repl x y : List Char) (hp : pat ≠ [])
    (hno : ∀ i, i < x.length → pat.isPrefixOf ((x ++ (pat ++ y)).drop i) = false) :
    replaceAll pat repl (x ++ (pat ++ y)) = x ++ (repl ++ replaceAll pat repl y) :=
  replaceAllFuel_decomp pat repl hp x _ y (Nat.le_refl _) hno

/-- From "the only occurrence of the pattern within `x ++ pat ++ y` is the
designated one" derive the two side conditions used by
`replaceAll_decomp` and `replaceAll_no_occur`. -/
theorem no_occur_of_unique (pat x y : List Char) (hp : pat ≠ [])
    (H : ∀ i, i < (x ++ (pat ++ y)).length →
      pat.isPrefixOf ((x ++ (pat ++ y)).drop i) = true → i = x.length) :
    (∀ i, i < x.length → pat.isPrefixOf ((x ++ (pat ++ y)).drop i) = false)
    ∧ (∀ i, pat.isPrefixOf (y.drop i) = false) := by
  have hplen : 0 < pat.length := List.length_pos.mpr hp
  constructor
  · intro i hi
    cases hb : pat.isPrefixOf ((x ++ (pat ++ y)).drop i) with
    | false => rfl
    | true =>
      have hlen : i < (x ++ (pat ++ y)).length := by
        simp only [List.length_append]; omega
      have := H i hlen hb
      omega
  · intro i
    by_cases hic : i < y.length
    · cases hb : pat.isPrefixOf (y.drop i) with
      | false => rfl
      | true =>
        have htrans :
            pat.isPrefixOf (((x ++ pat) ++ y).drop ((x ++ pat).length + i)) = true := by
          rw [← isPrefixOf_drop_append pat (x ++ pat) y i]; exact hb
        rw [List.append_assoc] at htrans
        have hlen : (x ++ pat).length + i < (x ++ (pat ++ y)).length := by
          simp only [List.length_append]; omega
        have := H ((x ++ pat).length + i) hlen htrans
        simp only [List.length_append] at this
        omega
    · rw [List.drop_of_length_le (by omega)]
      exact isPrefixOf_nil_of_ne pat hp

/-- `text.replace(pat, repl)` under a unique-occurrence hypothesis. -/
theorem pyReplace_unique (pat repl x y : List Char) (hp : pat ≠ [])
    (H : ∀ i, i < (x ++ (pat ++ y)).length →
      pat.isPrefixOf ((x ++ (pat ++ y)).drop i) = true → i = x.length) :
    pyReplace pat repl (x ++ (pat ++ y)) = x ++ (repl ++ y) := by
  obtain ⟨h1, h2⟩ := no_occur_of_unique pat x y hp H
  have hEmpty : pat.isEmpty = false := by
    cases pat with
    | nil => exact absurd rfl hp
    | cons _ _ => rfl
  rw [pyReplace, hEmpty]
  simp only [Bool.false_eq_true, if_false]
  rw [replaceAll_decomp pat repl x y hp h1, replaceAll_no_occur pat repl y h2]

def c1ner : Ner := fun _ => .ok [⟨9, 12, "Bob".data, "PERSON".data⟩]

/-- C1, counterexample: for the text `"PERSON_1 Bob"` and the single (hence
pairwise-disjoint) PERSON span `(9, 12, "Bob")` over that exact text,
`resolve` followed by `reverseResolve` with the produced mapping returns
`"Bob Bob"`, not the original text: the minted label `PERSON_1` collides with
text that was already present. -/
theorem resolve_reverse_roundtrip_counterexample :
    (("PERSON_1 Bob".data.take 12).drop 9 = "Bob".data)
    ∧ reverse_anonymization
        (anonymize_text (some c1ner) initMapperState "PERSON_1 Bob".data).1
        (anonymize_text (some c1ner) initMapperState "PERSON_1 Bob".data).2.1
        (some (anonymize_text (some c1ner) initMapperState "PERSON_1 Bob".data).2.2)
      ≠ "PERSON_1 Bob".data :=
  ⟨by decide, by decide⟩

/-- Bounds and pairwise disjointness of a start-descending span list over a
text of length `n`: each span satisfies `start ≤ stop ≤ n`, and every later
(further-left) span ends at or before this span's start. -/
def spansBoundedB : List EntitySpan → Nat → Bool
  | [], _ => true
  | e :: rest, n =>
    (decide (e.start ≤ e.stop) && decide (e.stop ≤ n)) && spansBoundedB rest e.start

/-- The state evolution, per-span label assignment and local mapping of the
replacement loop of `anonymize_text`, separated from the text rewriting
(same label logic as `applyEntity`, span by span; `anonymize_fold` below
certifies the correspondence). -/
def dryRun : MapperState → List (List Char × List Char) → List EntitySpan →
    MapperState × List (EntitySpan × List Char) × List (List Char × List Char)
  | st, lm, [] => (st, [], lm)
  | st, lm, e :: rest =>
    let stl : MapperState × List Char :=
      match alookup st.entity_to_label e.text with
      | some lbl => (st, lbl)
      | none =>
        let c := (alookup st.counter e.label).getD 0 + 1
        let lbl := labelNo e.label c
        ({ st with
            counter := aset st.counter e.label c,
            entity_to_label := aset st.entity_to_label e.text lbl,
            mapping_dict := aset st.mapping_dict lbl e.text,
            session_stats := { st.session_stats with
              unique_entities := st.session_stats.unique_entities + 1 } }, lbl)
    let st2 := { stl.1 with session_stats := { stl.1.session_stats with
        total_entities := stl.1.session_stats.total_entities + 1,
        entity_types := aset stl.1.session_stats.entity_types e.label
          ((alookup stl.1.session_stats.entity_types e.label).getD 0 + 1) } }
    let res := dryRun st2 (aset lm stl.2 e.text) rest
    (res.1, (e, stl.2) :: res.2.1, res.2.2)

/-- The text standing in one label slot during the reverse pass: the label
itself while not yet processed, its mapping entry once processed. -/
def pieceVal (m : List (List Char × List Char)) (done : List (List Char))
    (lbl : List Char) : List Char :=
  if lbl ∈ done then (alookup m lbl).getD [] else lbl

/-- The text produced by the rewriting pass (`done = []`) and its
partially-restored forms during the reverse pass: right to left over the
start-descending span/label pairs, every label slot carries `pieceVal` and
the source text between the spans is kept. -/
def renderWeave (t : List Char) (m : List (List Char × List Char))
    (done : List (List Char)) :
    List (EntitySpan × List Char) → Nat → List Char → List Char
  | [], n, suffix => t.take n ++ suffix
  | (sp, lbl) :: D, n, suffix =>
    renderWeave t m done D sp.start
      (pieceVal m done lbl ++ ((t.take n).drop sp.stop ++ suffix))

/-- Prepend text to the leftmost chunk of a chunk list. -/
def prependChunk (x : List Char) : List (List Char) → List (List Char)
  | [] => [x]
  | c :: cs => (x ++ c) :: cs

/-- The decomposition of `renderWeave` at the slots of one pattern label:
the chunks of text between the not-yet-processed occurrences of `pat`. -/
def chunksWeave (t : List Char) (m : List (List Char × List Char))
    (done : List (List Char)) (pat : List Char) :
    List (EntitySpan × List Char) → Nat → List (List Char) → List (List Char)
  | [], n, acc => prependChunk (t.take n) acc
  | (sp, lbl) :: D, n, acc =>
    if lbl = pat ∧ pat ∉ done then
      chunksWeave t m done pat D sp.start
        ([] :: prependChunk ((t.take n).drop sp.stop) acc)
    else
      chunksWeave t m done pat D sp.start
        (prependChunk (pieceVal m done lbl ++ (t.take n).drop sp.stop) acc)

/-- Interleave a list of chunks with a separator pattern. -/
def interleavePat (pat : List Char) : List (List Char) → List Char
  | [] => []
  | [c] => c
  | c :: c' :: cs => c ++ (pat ++ interleavePat pat (c' :: cs))

/-- The start positions of the separator occurrences in
`interleavePat pat chunks`. -/
def designatedPositions (pat : List Char) : List (List Char) → List Nat
  | [] => []
  | [_] => []
  | c :: c' :: cs =>
    c.length
      :: (designatedPositions pat (c' :: cs)).map (fun i => i + (c.length + pat.length))

theorem interleavePat_prependChunk (pat x : List Char) (acc : List (List Char)) :
    interleavePat pat (prependChunk x acc) = x ++ interleavePat pat acc := by
  match acc with
  | [] => simp [prependChunk, interleavePat]
  | [c] => simp [prependChunk, interleavePat]
  | c :: c' :: cs => simp [prependChunk, interleavePat, List.append_assoc]

theorem designatedPositions_ge (pat c : List Char) (cs : List (List Char)) :
    ∀ i ∈ designatedPositions pat (c :: cs), c.length ≤ i := by
  intro i hi
  match cs with
  | [] => simp [designatedPositions] at hi
  | c' :: cs' =>
    simp only [designatedPositions, List.mem_cons, List.mem_map] at hi
    rcases hi with rfl | ⟨j, _, rfl⟩
    · exact Nat.le_refl _
    · omega

/-- Replacing a non-empty pattern in an interleaving whose only pattern
occurrences are the separators replaces exactly the separators. -/
theorem replaceAll_interleave (pat repl : List Char) (hp : pat ≠ []) :
    ∀ chunks : List (List Char),
      (∀ i, pat.isPrefixOf ((interleavePat pat chunks).drop i) = true →
        i ∈ designatedPositions pat chunks) →
      replaceAll pat repl (interleavePat pat chunks) = interleavePat repl chunks := by
  intro chunks
  induction chunks with
  | nil => intro _; rfl
  | cons c cs ih =>
    intro H
    cases cs with
    | nil =>
      have hno : ∀ i, pat.isPrefixOf ((interleavePat pat [c]).drop i) = false := by
        intro i
        cases hb : pat.isPrefixOf ((interleavePat pat [c]).drop i) with
        | false => rfl
        | true =>
          have := H i hb
          simp [designatedPositions] at this
      have := replaceAll_no_occur pat repl (interleavePat pat [c]) hno
      simpa [interleavePat] using this
    | cons c' cs' =>
      have hplen : 0 < pat.length := List.length_pos.mpr hp
      have hiw : interleavePat pat (c :: c' :: cs')
          = c ++ (pat ++ interleavePat pat (c' :: cs')) := rfl
      have hno : ∀ i, i < c.length →
          pat.isPrefixOf ((c ++ (pat ++ interleavePat pat (c' :: cs'))).drop i)
            = false := by
        intro i hi
        cases hb : pat.isPrefixOf
            ((c ++ (pat ++ interleavePat pat (c' :: cs'))).drop i) with
        | false => rfl
        | true =>
          have hmem := H i (by rw [hiw]; exact hb)
          have := designatedPositions_ge pat c (c' :: cs') i hmem
          omega
      have hshift : ∀ j,
          pat.isPrefixOf ((interleavePat pat (c' :: cs')).drop j) = true →
          j ∈ designatedPositions pat (c' :: cs') := by
        intro j hj
        have htrans : pat.isPrefixOf
            ((interleavePat pat (c :: c' :: cs')).drop ((c ++ pat).length + j))
              = true := by
          rw [hiw, ← List.append_assoc]
          rw [← isPrefixOf_drop_append pat (c ++ pat) (interleavePat pat (c' :: cs')) j]
          exact hj
        have hmem := H ((c ++ pat).length + j) htrans
        rw [List.length_append] at hmem
        simp only [designatedPositions, List.mem_cons, List.mem_map] at hmem
        rcases hmem with heq | ⟨j', hj', heq⟩
        · omega
        · have : j' = j := by omega
          subst this
          exact hj'
      rw [hiw, replaceAll_decomp pat repl c (interleavePat pat (c' :: cs')) hp hno,
        ih hshift]
      rfl

theorem interleavePat_pair (pat : List Char) (c : List Char) (c' : List Char)
    (cs : List (List Char)) :
    interleavePat pat (c :: c' :: cs) = c ++ (pat ++ interleavePat pat (c' :: cs)) := rfl

/-- `chunksWeave` decomposes `renderWeave`: interleaving its chunks with the
pattern gives back the partially-restored text. -/
theorem interleave_chunksWeave (t : List Char) (m : List (List Char × List Char))
    (done : List (List Char)) (pat : List Char) :
    ∀ (D : List (EntitySpan × List Char)) (n : Nat) (acc : List (List Char)),
      interleavePat pat (chunksWeave t m done pat D n acc)
        = renderWeave t m done D n (interleavePat pat acc) := by
  intro D
  induction D with
  | nil =>
    intro n acc
    simp [chunksWeave, renderWeave, interleavePat_prependChunk]
  | cons p D ih =>
    intro n acc
    obtain ⟨sp, lbl⟩ := p
    by_cases hc : lbl = pat ∧ pat ∉ done
    · have hstep : chunksWeave t m done pat ((sp, lbl) :: D) n acc
          = chunksWeave t m done pat D sp.start
              ([] :: prependChunk ((t.take n).drop sp.stop) acc) := by
        rw [chunksWeave, if_pos hc]
      have hpv : pieceVal m done lbl = pat := by
        rw [pieceVal, if_neg (by rw [hc.1]; exact hc.2), hc.1]
      rw [hstep, ih, renderWeave, hpv]
      congr 1
      cases hacc : prependChunk ((t.take n).drop sp.stop) acc with
      | nil => cases acc <;> simp [prependChunk] at hacc
      | cons d ds =>
        rw [interleavePat_pair, ← hacc, interleavePat_prependChunk]
        simp
    · simp only [chunksWeave, renderWeave]
      rw [if_neg hc, ih, interleavePat_prependChunk]
      congr 1
      simp [List.append_assoc]

theorem pieceVal_cons_of_not (m : List (List Char × List Char))
    (done : List (List Char)) (pat lbl : List Char)
    (hc : ¬ (lbl = pat ∧ pat ∉ done)) :
    pieceVal m (pat :: done) lbl = pieceVal m done lbl := by
  by_cases hl : lbl = pat
  · subst hl
    have hmem : lbl ∈ done := by
      by_contra hno
      exact hc ⟨rfl, hno⟩
    rw [pieceVal, pieceVal, if_pos (List.mem_cons_self ..), if_pos hmem]
  · rw [pieceVal, pieceVal]
    by_cases hmem : lbl ∈ done
    · rw [if_pos (List.mem_cons_of_mem _ hmem), if_pos hmem]
    · rw [if_neg ?hnm, if_neg hmem]
      case hnm =>
        intro hx
        rcases List.mem_cons.mp hx with h | h
        · exact hl h
        · exact hmem h

/-- Interleaving the chunks with the pattern's mapping entry yields the
partially-restored text with the pattern marked as processed. -/
theorem interleave_repl_chunksWeave (t : List Char)
    (m : List (List Char × List Char)) (done : List (List Char))
    (pat : List Char) :
    ∀ (D : List (EntitySpan × List Char)) (n : Nat) (acc : List (List Char)),
      interleavePat ((alookup m pat).getD []) (chunksWeave t m done pat D n acc)
        = renderWeave t m (pat :: done) D n
            (interleavePat ((alookup m pat).getD []) acc) := by
  intro D
  induction D with
  | nil =>
    intro n acc
    simp [chunksWeave, renderWeave, interleavePat_prependChunk]
  | cons p D ih =>
    intro n acc
    obtain ⟨sp, lbl⟩ := p
    by_cases hc : lbl = pat ∧ pat ∉ done
    · have hstep : chunksWeave t m done pat ((sp, lbl) :: D) n acc
          = chunksWeave t m done pat D sp.start
              ([] :: prependChunk ((t.take n).drop sp.stop) acc) := by
        rw [chunksWeave, if_pos hc]
      have hpv : pieceVal m (pat :: done) lbl = (alookup m pat).getD [] := by
        rw [pieceVal, if_pos (by rw [hc.1]; exact List.mem_cons_self ..), hc.1]
      rw [hstep, ih, renderWeave, hpv]
      congr 1
      cases hacc : prependChunk ((t.take n).drop sp.stop) acc with
      | nil => cases acc <;> simp [prependChunk] at hacc
      | cons d ds =>
        rw [interleavePat_pair, ← hacc, interleavePat_prependChunk]
        simp
    · simp only [chunksWeave, renderWeave]
      rw [if_neg hc, ih, interleavePat_prependChunk,
        pieceVal_cons_of_not m done pat lbl hc]
      congr 1
      simp [List.append_assoc]

theorem pieceVal_congr (m : List (List Char × List Char))
    (d1 d2 : List (List Char)) (h : ∀ x, x ∈ d1 ↔ x ∈ d2) (lbl : List Char) :
    pieceVal m d1 lbl = pieceVal m d2 lbl := by
  rw [pieceVal, pieceVal]
  by_cases hm : lbl ∈ d1
  · rw [if_pos hm, if_pos ((h lbl).mp hm)]
  · rw [if_neg hm, if_neg (fun hx => hm ((h lbl).mpr hx))]

theorem renderWeave_congr (t : List Char) (m : List (List Char × List Char))
    (d1 d2 : List (List Char)) (h : ∀ x, x ∈ d1 ↔ x ∈ d2) :
    ∀ (D : List (EntitySpan × List Char)) (n : Nat) (suffix : List Char),
      renderWeave t m d1 D n suffix = renderWeave t m d2 D n suffix := by
  intro D
  induction D with
  | nil => intro n suffix; rfl
  | cons p D ih =>
    intro n suffix
    obtain ⟨sp, lbl⟩ := p
    simp only [renderWeave, pieceVal_congr m d1 d2 h, ih]

theorem chunksWeave_congr (t : List Char) (m : List (List Char × List Char))
    (d1 d2 : List (List Char)) (pat : List Char)
    (h : ∀ x, x ∈ d1 ↔ x ∈ d2) :
    ∀ (D : List (EntitySpan × List Char)) (n : Nat) (acc : List (List Char)),
      chunksWeave t m d1 pat D n acc = chunksWeave t m d2 pat D n acc := by
  intro D
  induction D with
  | nil => intro n acc; rfl
  | cons p D ih =>
    intro n acc
    obtain ⟨sp, lbl⟩ := p
    by_cases hc : lbl = pat ∧ pat ∉ d1
    · have hc2 : lbl = pat ∧ pat ∉ d2 :=
        ⟨hc.1, fun hx => hc.2 ((h pat).mpr hx)⟩
      rw [chunksWeave, if_pos hc, chunksWeave, if_pos hc2, ih]
    · have hc2 : ¬ (lbl = pat ∧ pat ∉ d2) := by
        intro hx
        exact hc ⟨hx.1, fun hy => hx.2 ((h pat).mp hy)⟩
      rw [chunksWeave, if_neg hc, chunksWeave, if_neg hc2, ih,
        pieceVal_congr m d1 d2 h]

theorem take_append_slice (t : List Char) (s e : Nat) (hse : s ≤ e) :
    t.take s ++ (t.take e).drop s = t.take e := by
  have h := List.take_append_drop s (t.take e)
  rw [List.take_take, show s ⊓ e = s by omega] at h
  exact h

/-- Once every label of the weave is processed and its mapping entry is the
original span slice, the partially-restored text is the original text. -/
theorem renderWeave_all_done (t : List Char) (m : List (List Char × List Char))
    (done : List (List Char)) :
    ∀ (D : List (EntitySpan × List Char)) (n : Nat) (suffix : List Char),
      n ≤ t.length →
      spansBoundedB (D.map Prod.fst) n = true →
      (∀ p ∈ D, p.2 ∈ done ∧ alookup m p.2 = some p.1.text
        ∧ p.1.text = (t.take p.1.stop).drop p.1.start) →
      renderWeave t m done D n suffix = t.take n ++ suffix := by
  intro D
  induction D with
  | nil => intro n suffix _ _ _; rfl
  | cons p D ih =>
    intro n suffix hn hb hall
    obtain ⟨sp, lbl⟩ := p
    simp only [List.map_cons, spansBoundedB, Bool.and_eq_true,
      decide_eq_true_eq] at hb
    obtain ⟨⟨hse, hen⟩, hbd⟩ := hb
    obtain ⟨hmem, hlook, hslice⟩ := hall (sp, lbl) (List.mem_cons_self ..)
    simp only [renderWeave]
    rw [ih sp.start _ (by omega) hbd
      (fun q hq => hall q (List.mem_cons_of_mem _ hq))]
    have hpv : pieceVal m done lbl = (t.take sp.stop).drop sp.start := by
      rw [pieceVal, if_pos hmem, hlook]
      exact hslice
    rw [hpv]
    calc t.take sp.start
          ++ ((t.take sp.stop).drop sp.start ++ ((t.take n).drop sp.stop ++ suffix))
        = (t.take sp.start ++ (t.take sp.stop).drop sp.start)
            ++ ((t.take n).drop sp.stop ++ suffix) := by rw [List.append_assoc]
      _ = t.take sp.stop ++ ((t.take n).drop sp.stop ++ suffix) := by
            rw [take_append_slice t sp.start sp.stop hse]
      _ = (t.take sp.stop ++ (t.take n).drop sp.stop) ++ suffix := by
            rw [List.append_assoc]
      _ = t.take n ++ suffix := by rw [take_append_slice t sp.stop n hen]

/-- The label resolution of one entity: reuse the session label for a known
text, else mint `f"{label}_{counter+1}"` and record it in the session
dictionaries (the shared first half of `applyEntity` and `dryRun`). -/
def mintLabel (st : MapperState) (e : EntitySpan) : MapperState × List Char :=
  match alookup st.entity_to_label e.text with
  | some lbl => (st, lbl)
  | none =>
    let c := (alookup st.counter e.label).getD 0 + 1
    let lbl := labelNo e.label c
    ({ st with
        counter := aset st.counter e.label c,
        entity_to_label := aset st.entity_to_label e.text lbl,
        mapping_dict := aset st.mapping_dict lbl e.text,
        session_stats := { st.session_stats with
          unique_entities := st.session_stats.unique_entities + 1 } }, lbl)

/-- The per-entity statistics update (the shared second half of `applyEntity`
and `dryRun`). -/
def bumpStats (st : MapperState) (e : EntitySpan) : MapperState :=
  { st with session_stats := { st.session_stats with
      total_entities := st.session_stats.total_entities + 1,
      entity_types := aset st.session_stats.entity_types e.label
        ((alookup st.session_stats.entity_types e.label).getD 0 + 1) } }

theorem applyEntity_eq (st : MapperState) (txt : List Char)
    (lm : List (List Char × List Char)) (e : EntitySpan) :
    applyEntity (st, txt, lm) e
      = (bumpStats (mintLabel st e).1 e,
         txt.take e.start ++ ((mintLabel st e).2 ++ txt.drop e.stop),
         aset lm (mintLabel st e).2 e.text) := by
  cases hA : alookup st.entity_to_label e.text with
  | none => simp only [applyEntity, mintLabel, bumpStats, hA, List.append_assoc]
  | some lbl => simp only [applyEntity, mintLabel, bumpStats, hA, List.append_assoc]

theorem dryRun_cons (st : MapperState) (lm : List (List Char × List Char))
    (e : EntitySpan) (rest : List EntitySpan) :
    dryRun st lm (e :: rest)
      = ((dryRun (bumpStats (mintLabel st e).1 e)
            (aset lm (mintLabel st e).2 e.text) rest).1,
         (e, (mintLabel st e).2)
           :: (dryRun (bumpStats (mintLabel st e).1 e)
                (aset lm (mintLabel st e).2 e.text) rest).2.1,
         (dryRun (bumpStats (mintLabel st e).1 e)
            (aset lm (mintLabel st e).2 e.text) rest).2.2) := by
  cases hA : alookup st.entity_to_label e.text with
  | none => simp only [dryRun, mintLabel, bumpStats, hA]
  | some lbl => simp only [dryRun, mintLabel, bumpStats, hA]

theorem pieceVal_nil (m : List (List Char × List Char)) (lbl : List Char) :
    pieceVal m [] lbl = lbl := rfl

/-- Simulation: the replacement fold of `anonymize_text` over a bounded,
start-descending span list computes exactly the state and local mapping of
`dryRun` together with the woven text `renderWeave` (with no label processed
yet, under any mapping `m`). -/
theorem anonymize_fold (t : List Char) :
    ∀ (spans : List EntitySpan) (st : MapperState)
      (lm : List (List Char × List Char)) (n : Nat) (suffix : List Char)
      (m : List (List Char × List Char)),
      n ≤ t.length →
      spansBoundedB spans n = true →
      List.foldl applyEntity (st, t.take n ++ suffix, lm) spans
        = ((dryRun st lm spans).1,
           renderWeave t m [] (dryRun st lm spans).2.1 n suffix,
           (dryRun st lm spans).2.2) := by
  intro spans
  induction spans with
  | nil =>
    intro st lm n suffix m _ _
    rfl
  | cons e rest ih =>
    intro st lm n suffix m hn hb
    simp only [spansBoundedB, Bool.and_eq_true, decide_eq_true_eq] at hb
    obtain ⟨⟨hse, hen⟩, hbr⟩ := hb
    have hlen : (t.take n).length = n := by
      rw [List.length_take]; omega
    have htake : (t.take n ++ suffix).take e.start = t.take e.start := by
      rw [List.take_append_of_le_length (by rw [hlen]; omega), List.take_take,
        Nat.min_eq_left (by omega)]
    have hdrop : (t.take n ++ suffix).drop e.stop
        = (t.take n).drop e.stop ++ suffix := by
      rw [List.drop_append_of_le_length (by rw [hlen]; omega)]
    rw [List.foldl_cons, applyEntity_eq, htake, hdrop,
      ih (bumpStats (mintLabel st e).1 e) (aset lm (mintLabel st e).2 e.text)
        e.start ((mintLabel st e).2 ++ ((t.take n).drop e.stop ++ suffix)) m
        (by omega) hbr,
      dryRun_cons]
    simp only [renderWeave, pieceVal_nil]

/-- The reverse pass, label by label: if at each step the current label is
non-empty and occurs in the partially-restored text only at the designated
slots, then each `str.replace` fills exactly those slots, and the fold moves
the labels of `order` from pending to processed. -/
theorem reverse_fold (t : List Char) (m : List (List Char × List Char))
    (D : List (EntitySpan × List Char)) :
    ∀ (order done : List (List Char)),
      (∀ pre pat post, order = pre ++ pat :: post →
        pat ≠ [] ∧
        ∀ i, pat.isPrefixOf
            ((renderWeave t m (done ++ pre) D t.length []).drop i) = true →
          i ∈ designatedPositions pat
              (chunksWeave t m (done ++ pre) pat D t.length [[]])) →
      order.foldl (fun acc lbl => pyReplace lbl ((alookup m lbl).getD []) acc)
          (renderWeave t m done D t.length [])
        = renderWeave t m (done ++ order) D t.length [] := by
  intro order
  induction order with
  | nil =>
    intro done _
    rw [List.foldl_nil, List.append_nil]
  | cons pat order' ih =>
    intro done H
    obtain ⟨hpne, hocc⟩ := H [] pat order' rfl
    simp only [List.append_nil] at hocc
    have hEmpty : pat.isEmpty = false := by
      cases pat with
      | nil => exact absurd rfl hpne
      | cons _ _ => rfl
    have hca : interleavePat pat (chunksWeave t m done pat D t.length [[]])
        = renderWeave t m done D t.length [] :=
      interleave_chunksWeave t m done pat D t.length [[]]
    have hstep :
        pyReplace pat ((alookup m pat).getD [])
            (renderWeave t m done D t.length [])
          = renderWeave t m (pat :: done) D t.length [] := by
      rw [pyReplace, hEmpty]
      simp only [Bool.false_eq_true, if_false]
      rw [← hca, replaceAll_interleave pat ((alookup m pat).getD []) hpne
        (chunksWeave t m done pat D t.length [[]])
        (fun i hi => hocc i (by rw [← hca]; exact hi))]
      exact interleave_repl_chunksWeave t m done pat D t.length [[]]
    have hnext : ∀ pre pat' post, order' = pre ++ pat' :: post →
        pat' ≠ [] ∧
        ∀ i, pat'.isPrefixOf
            ((renderWeave t m ((done ++ [pat]) ++ pre) D t.length []).drop i)
              = true →
          i ∈ designatedPositions pat'
              (chunksWeave t m ((done ++ [pat]) ++ pre) pat' D t.length [[]]) := by
      intro pre pat' post hdec
      have h2 := H (pat :: pre) pat' post (by rw [hdec]; rfl)
      have hl2 : done ++ pat :: pre = (done ++ [pat]) ++ pre := by
        rw [List.append_assoc]; rfl
      rw [hl2] at h2
      exact h2
    have hmm : ∀ x, x ∈ pat :: done ↔ x ∈ done ++ [pat] := by
      intro x
      simp [List.mem_append, List.mem_cons, or_comm]
    have hl : (done ++ [pat]) ++ order' = done ++ pat :: order' := by
      rw [List.append_assoc]; rfl
    simp only [List.foldl_cons]
    rw [hstep,
      renderWeave_congr t m (pat :: done) (done ++ [pat]) hmm D t.length [],
      ih (done ++ [pat]) hnext, hl]

theorem alookup_mem_keys {κ β : Type} [DecidableEq κ] (d : List (κ × β))
    (k : κ) (v : β) (h : alookup d k = some v) : k ∈ d.map Prod.fst := by
  induction d with
  | nil => simp [alookup] at h
  | cons kv rest ih =>
    obtain ⟨k', v'⟩ := kv
    by_cases hk : k' = k
    · subst hk
      simp
    · simp only [alookup, if_neg hk] at h
      simp [ih h]

theorem mem_insertLenDesc (a x : List Char) (l : List (List Char)) :
    x ∈ insertLenDesc a l ↔ x = a ∨ x ∈ l := by
  induction l with
  | nil => simp [insertLenDesc]
  | cons b bs ih =>
    rw [insertLenDesc]
    by_cases hc : a.length < b.length
    · rw [if_pos hc]
      simp only [List.mem_cons, ih]
      tauto
    · rw [if_neg hc]
      simp only [List.mem_cons]

theorem mem_sortByLenDesc (x : List Char) (l : List (List Char)) :
    x ∈ sortByLenDesc l ↔ x ∈ l := by
  induction l with
  | nil => simp [sortByLenDesc]
  | cons b bs ih =>
    show x ∈ insertLenDesc b (sortByLenDesc bs) ↔ _
    rw [mem_insertLenDesc, ih]
    simp [List.mem_cons]

theorem mem_insertSpanDesc (e x : EntitySpan) (l : List EntitySpan) :
    x ∈ insertSpanDesc e l ↔ x = e ∨ x ∈ l := by
  induction l with
  | nil => simp [insertSpanDesc]
  | cons b bs ih =>
    rw [insertSpanDesc]
    by_cases hc : e.start < b.start
    · rw [if_pos hc]
      simp only [List.mem_cons, ih]
      tauto
    · rw [if_neg hc]
      simp only [List.mem_cons]

theorem mem_sortByStartDesc (x : EntitySpan) (l : List EntitySpan) :
    x ∈ sortByStartDesc l ↔ x ∈ l := by
  induction l with
  | nil => simp [sortByStartDesc]
  | cons b bs ih =>
    show x ∈ insertSpanDesc b (sortByStartDesc bs) ↔ _
    rw [mem_insertSpanDesc, ih]
    simp [List.mem_cons]

/-- The span/label pairs of `dryRun` are exactly the processed spans, in
order. -/
theorem dryRun_pairs_fst :
    ∀ (spans : List EntitySpan) (st : MapperState)
      (lm : List (List Char × List Char)),
      ((dryRun st lm spans).2.1).map Prod.fst = spans := by
  intro spans
  induction spans with
  | nil => intro st lm; rfl
  | cons e rest ih =>
    intro st lm
    rw [dryRun_cons]
    simp only [List.map_cons, ih]

theorem getD_length_append {α : Type} (pre : List α) (x : α) (post : List α)
    (d : α) : (pre ++ x :: post).getD pre.length d = x := by
  induction pre with
  | nil => rfl
  | cons a pre ih => exact ih

/-- The span/label pairs produced by one `anonymize_text` call on the
start-descending spans, starting from an empty local mapping. -/
def anonPairs (st : MapperState) (ents : List EntitySpan) :
    List (EntitySpan × List Char) :=
  (dryRun st [] (sortByStartDesc ents)).2.1

/-- The local mapping produced by one `anonymize_text` call. -/
def anonMap (st : MapperState) (ents : List EntitySpan) :
    List (List Char × List Char) :=
  (dryRun st [] (sortByStartDesc ents)).2.2

/-- The label order of the subsequent `reverse_anonymization` call: the keys
of the local mapping, longest first. -/
def reverseOrder (st : MapperState) (ents : List EntitySpan) :
    List (List Char) :=
  sortByLenDesc ((anonMap st ents).map Prod.fst)

/-- The partially-restored text before step `j` of the reverse pass. -/
def stageText (t : List Char) (st : MapperState) (ents : List EntitySpan)
    (j : Nat) : List Char :=
  renderWeave t (anonMap st ents) ((reverseOrder st ents).take j)
    (anonPairs st ents) t.length []

/-- The chunk decomposition of the partially-restored text before step `j`
of the reverse pass at the slots of the label processed in step `j`. -/
def stageChunks (t : List Char) (st : MapperState) (ents : List EntitySpan)
    (j : Nat) : List (List Char) :=
  chunksWeave t (anonMap st ents) ((reverseOrder st ents).take j)
    ((reverseOrder st ents).getD j []) (anonPairs st ents) t.length [[]]

/-- The round trip on a non-blank text (the blank case short-circuits and is
handled separately in the claim theorem below). -/
theorem roundtrip_nonblank (ner : Ner) (st : MapperState)
    (t : List Char) (ents : List EntitySpan)
    (hner : ner t = .ok ents)
    (ht : (t.isEmpty || t.all isPySpace) = false)
    (hb : spansBoundedB (sortByStartDesc ents) t.length = true)
    (hslice : ∀ e ∈ ents, e.text = (t.take e.stop).drop e.start)
    (hlm : ∀ p ∈ anonPairs st ents,
      alookup (anonMap st ents) p.2 = some p.1.text)
    (hlab : [] ∉ reverseOrder st ents)
    (hstage : ∀ j, j < (reverseOrder st ents).length →
      ∀ i, i < (stageText t st ents j).length →
        ((reverseOrder st ents).getD j []).isPrefixOf
            ((stageText t st ents j).drop i) = true →
        i ∈ designatedPositions ((reverseOrder st ents).getD j [])
            (stageChunks t st ents j)) :
    reverse_anonymization (anonymize_text (some ner) st t).1
        (anonymize_text (some ner) st t).2.1
        (some (anonymize_text (some ner) st t).2.2)
      = t := by
  have hf := anonymize_fold t (sortByStartDesc ents) st [] t.length []
    (anonMap st ents) (Nat.le_refl _) hb
  rw [List.take_length, List.append_nil] at hf
  have hanon : anonymize_text (some ner) st t
      = ((dryRun st [] (sortByStartDesc ents)).1,
         renderWeave t (anonMap st ents) [] (anonPairs st ents) t.length [],
         anonMap st ents) := by
    simp only [anonymize_text, ht, Bool.false_eq_true, if_false, hner]
    exact hf
  rw [hanon]
  have hro : reverseOrder st ents
      = sortByLenDesc ((anonMap st ents).map Prod.fst) := rfl
  simp only [reverse_anonymization, Option.getD_some]
  rw [← hro]
  have hdecomp : ∀ pre pat post,
      reverseOrder st ents = pre ++ pat :: post →
      pat ≠ [] ∧
      ∀ i, pat.isPrefixOf
          ((renderWeave t (anonMap st ents) ([] ++ pre) (anonPairs st ents)
            t.length []).drop i) = true →
        i ∈ designatedPositions pat
            (chunksWeave t (anonMap st ents) ([] ++ pre) pat
              (anonPairs st ents) t.length [[]]) := by
    intro pre pat post hdec
    have hmem : pat ∈ reverseOrder st ents := by
      rw [hdec]
      simp
    have hpne : pat ≠ [] := fun h => hlab (h ▸ hmem)
    refine ⟨hpne, ?_⟩
    intro i hocc
    simp only [List.nil_append] at hocc ⊢
    have hjlt : pre.length < (reverseOrder st ents).length := by
      rw [hdec, List.length_append, List.length_cons]
      omega
    have hget : (reverseOrder st ents).getD pre.length [] = pat := by
      rw [hdec, getD_length_append]
    have hpre : (reverseOrder st ents).take pre.length = pre := by
      rw [hdec, List.take_left]
    have hstx : stageText t st ents pre.length
        = renderWeave t (anonMap st ents) pre (anonPairs st ents)
            t.length [] := by
      rw [stageText, hpre]
    have hstc : stageChunks t st ents pre.length
        = chunksWeave t (anonMap st ents) pre pat (anonPairs st ents)
            t.length [[]] := by
      rw [stageChunks, hpre, hget]
    rw [← hstc]
    rw [← hstx] at hocc
    rcases Nat.lt_or_ge i (stageText t st ents pre.length).length with
      hilt | hige
    · have hres := hstage pre.length hjlt i hilt (by rw [hget]; exact hocc)
      rwa [hget] at hres
    · exfalso
      rw [List.drop_of_length_le hige, isPrefixOf_nil_of_ne pat hpne] at hocc
      exact Bool.false_ne_true hocc
  have hrf := reverse_fold t (anonMap st ents) (anonPairs st ents)
    (reverseOrder st ents) [] hdecomp
  rw [List.nil_append] at hrf
  rw [hrf]
  have hglue : renderWeave t (anonMap st ents) (reverseOrder st ents)
      (anonPairs st ents) t.length [] = t.take t.length ++ [] := by
    refine renderWeave_all_done t (anonMap st ents) (reverseOrder st ents)
      (anonPairs st ents) t.length [] (Nat.le_refl _) ?_ ?_
    · rw [show (anonPairs st ents).map Prod.fst = sortByStartDesc ents from
        dryRun_pairs_fst (sortByStartDesc ents) st []]
      exact hb
    · intro p hp
      have hkey : p.2 ∈ (anonMap st ents).map Prod.fst :=
        alookup_mem_keys (anonMap st ents) p.2 p.1.text (hlm p hp)
      have hspan : p.1 ∈ ents := by
        have h1 : p.1 ∈ (anonPairs st ents).map Prod.fst :=
          List.mem_map_of_mem Prod.fst hp
        rw [show (anonPairs st ents).map Prod.fst = sortByStartDesc ents from
          dryRun_pairs_fst (sortByStartDesc ents) st []] at h1
        exact (mem_sortByStartDesc p.1 ents).mp h1
      exact ⟨(mem_sortByLenDesc p.2 ((anonMap st ents).map Prod.fst)).mpr hkey,
        hlm p hp, hslice p.1 hspan⟩
  rw [hglue, List.take_length, List.append_nil]

/-- C1, amended: the round trip holds in full generality — for every prior
session state, every text, and every pairwise-disjoint in-bounds span list
quoting that exact text (any label types, possibly repeated span texts) —
under the non-collision provisos that the counterexample shows are genuinely
needed: every label of the produced local mapping is non-empty and maps back
to the text of the span(s) it replaced, and at each step of the reverse pass
the label being restored occurs in the partially-restored text only at the
positions where it was substituted.  Then `reverse_anonymization` applied to
the output of `anonymize_text` with the produced local mapping reconstructs
the original text exactly. -/
theorem resolve_reverse_roundtrip (ner : Ner) (st : MapperState)
    (t : List Char) (ents : List EntitySpan)
    (hner : ner t = .ok ents)
    (hb : spansBoundedB (sortByStartDesc ents) t.length = true)
    (hslice : ∀ e ∈ ents, e.text = (t.take e.stop).drop e.start)
    (hlm : ∀ p ∈ anonPairs st ents,
      alookup (anonMap st ents) p.2 = some p.1.text)
    (hlab : [] ∉ reverseOrder st ents)
    (hstage : ∀ j, j < (reverseOrder st ents).length →
      ∀ i, i < (stageText t st ents j).length →
        ((reverseOrder st ents).getD j []).isPrefixOf
            ((stageText t st ents j).drop i) = true →
        i ∈ designatedPositions ((reverseOrder st ents).getD j [])
            (stageChunks t st ents j)) :
    reverse_anonymization (anonymize_text (some ner) st t).1
        (anonymize_text (some ner) st t).2.1
        (some (anonymize_text (some ner) st t).2.2)
      = t := by
  by_cases hbl : (t.isEmpty || t.all isPySpace) = true
  · have hshort : anonymize_text (some ner) st t = (st, t, []) := by
      simp only [anonymize_text, hbl, if_true]
    rw [hshort]
    rfl
  · exact roundtrip_nonblank ner st t ents hner
      (by rwa [Bool.not_eq_true] at hbl) hb hslice hlm hlab hstage

def c1wner : Ner :=
  fun _ => .ok [⟨0, 2, "ab".data, "P".data⟩, ⟨3, 5, "cd".data, "P".data⟩]

theorem resolve_reverse_roundtrip_witness :
    reverse_anonymization
        (anonymize_text (some c1wner) initMapperState "ab cd".data).1
        (anonymize_text (some c1wner) initMapperState "ab cd".data).2.1
        (some (anonymize_text (some c1wner) initMapperState "ab cd".data).2.2)
      = "ab cd".data :=
  resolve_reverse_roundtrip c1wner initMapperState "ab cd".data
    [⟨0, 2, "ab".data, "P".data⟩, ⟨3, 5, "cd".data, "P".data⟩]
    rfl (by decide) (by decide) (by decide) (by decide) (by decide)

/-! ## Document records and the Content Anonymizer -/

/-- A table cell: either a Python string or some non-string value (number,
`None`, ...); `_anonymize_pdf_content` and `_anonymize_excel_content`
dispatch on `isinstance(cell, str)`. -/
inductive CellValue where
  | str (s : List Char)
  | nonStr
deriving DecidableEq, Repr

/-- One extracted table of a PDF page: `table['data']` is a list of rows,
each row a dict from column name to cell. `anonymization_mapping` is a key
added by the anonymizer (absent on extractor output). -/
structure TableRecord where
  data : List (List (List Char × CellValue))
  anonymization_mapping : Option (List (List Char × List Char))
deriving DecidableEq, Repr

/-- One extracted PDF page. -/
structure PageRecord where
  page_number : Nat
  text_content : List Char
  tables : List TableRecord
  anonymization_mapping : Option (List (List Char × List Char))
deriving DecidableEq, Repr

/-- One row of an Excel sheet: `row_data['raw_text']` and
`row_data['cells']`. -/
structure RowRecord where
  raw_text : List Char
  cells : List CellValue
deriving DecidableEq, Repr

/-- One extracted Excel sheet. -/
structure SheetRecord where
  sheet_name : List Char
  content : List RowRecord
  anonymization_mapping : Option (List (List Char × List Char))
deriving DecidableEq, Repr

/-- The `anonymization_metadata` dict added by
`anonymize_extracted_content`. -/
structure AnonymizationMetadata where
  anonymized : Bool
  spacy_model : String
  total_mappings : Nat
  entity_types_found : List (List Char)
deriving DecidableEq, Repr

/-- An extraction-results dict as produced by `DocumentExtractor` and
transformed by the anonymizer: `pages` is present exactly for pdf output,
`sheets` exactly for excel output, and the two `anonymization_*` keys are
absent (`none`) until the anonymizer adds them. -/
structure DocumentRecord where
  file_type : String
  file_path : String
  pages : Option (List PageRecord)
  sheets : Option (List SheetRecord)
  anonymization_mapping : Option (List (List Char × List Char))
  anonymization_metadata : Option AnonymizationMetadata
deriving DecidableEq, Repr

/-- Cell step of the table loop in `_anonymize_pdf_content`:
`if cell_value and isinstance(cell_value, str)`. The accumulator carries the
mapper state and the growing `table_mappings`. -/
def pdfCellStep (nlp : Option Ner)
    (acc : MapperState × List (List Char × List Char))
    (cell : List Char × CellValue) :
    (MapperState × List (List Char × List Char)) × (List Char × CellValue) :=
  match cell.2 with
  | .str s =>
    if s.isEmpty then (acc, cell)
    else
      let (st', anon, lm) := anonymize_text nlp acc.1 s
      ((st', dictUpdate acc.2 lm), (cell.1, CellValue.str anon))
  | .nonStr => (acc, cell)

/-- Table loop of `_anonymize_pdf_content`: anonymize every textual cell and
attach the accumulated `anonymization_mapping` to the table. -/
def anonymizePdfTable (nlp : Option Ner) (st : MapperState)
    (table : TableRecord) : MapperState × TableRecord :=
  let ((st', tm), rows') :=
    mapAccum (fun acc row => mapAccum (pdfCellStep nlp) acc row) (st, []) table.data
  (st', { table with data := rows', anonymization_mapping := some tm })

/-- Page loop of `_anonymize_pdf_content`: anonymize `text_content` when it
is truthy (attaching the local mapping to the page) and then every table. -/
def anonymizePdfPage (nlp : Option Ner) (st : MapperState)
    (page : PageRecord) : MapperState × PageRecord :=
  let (st1, page1) :=
    if page.text_content.isEmpty then (st, page)
    else
      let (st', anon, lm) := anonymize_text nlp st page.text_content
      (st', { page with text_content := anon, anonymization_mapping := some lm })
  let (st2, tables') := mapAccum (anonymizePdfTable nlp) st1 page1.tables
  (st2, { page1 with tables := tables' })

/-- Cell step of the row loop in `_anonymize_excel_content`:
`if isinstance(cell, str)` (no truthiness test here, unlike the pdf case). -/
def excelCellStep (nlp : Option Ner)
    (acc : MapperState × List (List Char × List Char)) (cell : CellValue) :
    (MapperState × List (List Char × List Char)) × CellValue :=
  match cell with
  | .str s =>
    let (st', anon, lm) := anonymize_text nlp acc.1 s
    ((st', dictUpdate acc.2 lm), CellValue.str anon)
  | .nonStr => (acc, cell)

/-- Row loop of `_anonymize_excel_content`: anonymize `raw_text` and every
string cell, accumulating the sheet mapping. -/
def excelRowStep (nlp : Option Ner)
    (acc : MapperState × List (List Char × List Char)) (row : RowRecord) :
    (MapperState × List (List Char × List Char)) × RowRecord :=
  let (st1, anonRaw, lm) := anonymize_text nlp acc.1 row.raw_text
  let sm1 := dictUpdate acc.2 lm
  let ((st2, sm2), cells') := mapAccum (excelCellStep nlp) (st1, sm1) row.cells
  ((st2, sm2), { row with raw_text := anonRaw, cells := cells' })

/-- Sheet loop of `_anonymize_excel_content`. -/
def anonymizeExcelSheet (nlp : Option Ner) (st : MapperState)
    (sheet : SheetRecord) : MapperState × SheetRecord :=
  let ((st', sm), rows') := mapAccum (excelRowStep nlp) (st, []) sheet.content
  (st', { sheet with content := rows', anonymization_mapping := some sm })

/-- `TextAnonymizer.anonymize_extracted_content`. When the NER capability is
unavailable the input dict itself is returned (in Python: the very same
object, not a copy, and with no metadata added). Otherwise the traversal runs
on a copy, metadata is attached, and a missing `pages`/`sheets` key (the only
exception source of the traversal in this model) becomes an
`AnonymizationError`. -/
def anonymize_extracted_content (spacy_model : String) (nlp : Option Ner)
    (st : MapperState) (extraction_results : DocumentRecord) :
    Except String (MapperState × DocumentRecord) :=
  match nlp with
  | none => .ok (st, extraction_results)
  | some _ =>
    let base := { extraction_results with
      anonymization_metadata := some
        ({ anonymized := true, spacy_model := spacy_model,
           total_mappings := 0, entity_types_found := [] }) }
    let traversed : Except String (MapperState × DocumentRecord) :=
      if base.file_type = "pdf" then
        match base.pages with
        | none => .error "Failed to anonymize content: 'pages'"
        | some ps =>
          let (st', ps') := mapAccum (anonymizePdfPage nlp) st ps
          .ok (st', { base with pages := some ps' })
      else if base.file_type = "excel" then
        match base.sheets with
        | none => .error "Failed to anonymize content: 'sheets'"
        | some ss =>
          let (st', ss') := mapAccum (anonymizeExcelSheet nlp) st ss
          .ok (st', { base with sheets := some ss' })
      else
        .ok (st, base)
    match traversed with
    | .error e => .error e
    | .ok (st', rec) =>
      let finalMeta : AnonymizationMetadata :=
        { anonymized := true, spacy_model := spacy_model,
          total_mappings := st'.mapping_dict.length,
          entity_types_found := st'.session_stats.entity_types.map Prod.fst }
      .ok (st', { rec with anonymization_metadata := some finalMeta })

/-- `TextAnonymizer.prepare_data_for_llm`: drop the top-level
`anonymization_mapping` key and the per-page, per-table and per-sheet
`anonymization_mapping` keys from a (deep copy of the) record. -/
def prepare_data_for_llm (anonymized_data : DocumentRecord) : DocumentRecord :=
  { anonymized_data with
    anonymization_mapping := none,
    pages := anonymized_data.pages.map (List.map fun page =>
      { page with
        anonymization_mapping := none,
        tables := page.tables.map fun table =>
          { table with anonymization_mapping := none } }),
    sheets := anonymized_data.sheets.map (List.map fun sheet =>
      { sheet with anonymization_mapping := none }) }

/-- No `anonymization_mapping` key at any of its possible nesting depths:
top level, per page, per table, per sheet. -/
def noAnonymizationMapping (r : DocumentRecord) : Prop :=
  r.anonymization_mapping = none
  ∧ (∀ ps, r.pages = some ps → ∀ p ∈ ps, p.anonymization_mapping = none
      ∧ ∀ tb ∈ p.tables, tb.anonymization_mapping = none)
  ∧ (∀ ss, r.sheets = some ss → ∀ s ∈ ss, s.anonymization_mapping = none)

theorem prepare_data_for_llm_clean (r : DocumentRecord) :
    noAnonymizationMapping (prepare_data_for_llm r) := by
  refine ⟨rfl, ?_, ?_⟩
  · intro ps hps p hp
    simp only [prepare_data_for_llm, Option.map_eq_some'] at hps
    obtain ⟨ps0, _, rfl⟩ := hps
    simp only [List.mem_map] at hp
    obtain ⟨p0, _, rfl⟩ := hp
    refine ⟨rfl, ?_⟩
    intro tb htb
    simp only [List.mem_map] at htb
    obtain ⟨tb0, _, rfl⟩ := htb
    rfl
  · intro ss hss s hs
    simp only [prepare_data_for_llm, Option.map_eq_some'] at hss
    obtain ⟨ss0, _, rfl⟩ := hss
    simp only [List.mem_map] at hs
    obtain ⟨s0, _, rfl⟩ := hs
    rfl

/-- C3: for every pdf or excel document record, sanitizing
(`prepare_data_for_llm`) the output of `anonymize_extracted_content` yields a
record with no `anonymization_mapping` key at any nesting depth. -/
theorem sanitize_after_anonymize_clean (spacy_model : String) (nlp : Option Ner)
    (st : MapperState) (rec : DocumentRecord) (st' : MapperState)
    (rec' : DocumentRecord)
    (hft : rec.file_type = "pdf" ∨ rec.file_type = "excel")
    (h : anonymize_extracted_content spacy_model nlp st rec = .ok (st', rec')) :
    noAnonymizationMapping (prepare_data_for_llm rec') :=
  prepare_data_for_llm_clean rec'

def c3page : PageRecord :=
  { page_number := 1, text_content := "Hello Anna".data,
    tables := [{ data := [[("Name".data, CellValue.str "Anna".data)]],
                 anonymization_mapping := none }],
    anonymization_mapping := none }

def c3rec : DocumentRecord :=
  { file_type := "pdf", file_path := "demo.pdf", pages := some [c3page],
    sheets := none, anonymization_mapping := none,
    anonymization_metadata := none }

def c3ner : Ner := fun _ => .ok []

def c3tableAnon : TableRecord :=
  { data := [[("Name".data, CellValue.str "Anna".data)]],
    anonymization_mapping := some [] }

def c3pageAnon : PageRecord :=
  { page_number := 1, text_content := "Hello Anna".data,
    tables := [c3tableAnon], anonymization_mapping := some [] }

def c3metaAnon : AnonymizationMetadata :=
  { anonymized := true, spacy_model := "de_core_news_sm",
    total_mappings := 0, entity_types_found := [] }

def c3recAnon : DocumentRecord :=
  { file_type := "pdf", file_path := "demo.pdf", pages := some [c3pageAnon],
    sheets := none, anonymization_mapping := none,
    anonymization_metadata := some c3metaAnon }

theorem sanitize_after_anonymize_clean_witness :
    noAnonymizationMapping (prepare_data_for_llm c3recAnon) :=
  sanitize_after_anonymize_clean "de_core_news_sm" (some c3ner)
    initMapperState c3rec initMapperState c3recAnon (Or.inl rfl) rfl

/-! ## C8: behaviour when the NER capability is unavailable -/

/-- C8, amended: when the NER capability is unavailable,
`anonymize_extracted_content` does not fail and returns its input record
unchanged with an unchanged mapper state — in Python it returns the very
same object it was given (not a deep copy), and no
`anonymized: false` metadata is added. -/
theorem anonymize_extracted_content_unavailable (spacy_model : String)
    (st : MapperState) (rec : DocumentRecord) :
    anonymize_extracted_content spacy_model none st rec = .ok (st, rec) := rfl

/-- C8, counterexample: on a concrete pdf record with no metadata, the
unavailable-NER call returns the input record itself, whose
`anonymization_metadata` is absent — contradicting the claim that the result
carries `anonymized: false` metadata (and, being the identical value, it is
the same Python object rather than a deep copy). -/
theorem anonymize_extracted_content_unavailable_counterexample :
    anonymize_extracted_content "de_core_news_sm" none initMapperState c3rec
      = .ok (initMapperState, c3rec)
    ∧ c3rec.anonymization_metadata = none :=
  ⟨rfl, rfl⟩

/-! ## The Restructuring Client (`llm_restructurer.py`) -/

/-- Parsed JSON values (the shape of `json.loads` output). -/
inductive Json where
  | null
  | bool (b : Bool)
  | num (n : Int)
  | str (s : String)
  | arr (items : List Json)
  | obj (fields : List (String × Json))

/-- The per-employee check of `validate_restructured_data`:
`isinstance(employee.get('absence_records'), list)` for a dict employee.
(A non-dict employee would raise in Python; such malformed elements are
modelled as invalid.) -/
def isAbsenceEmployeeValid (emp : Json) : Bool :=
  match emp with
  | .obj ef =>
    match alookup ef "absence_records" with
    | some (.arr _) => true
    | _ => false
  | _ => false

/-- `LLMDataRestructurer.validate_restructured_data`: requires
`document_type` and `extraction_date` keys; when `document_type` is the
string `"absence_records"`, additionally requires an `employees` array whose
every element carries an `absence_records` array. (Non-dict input, for which
Python's `in` test degenerates, is modelled as invalid.) -/
def validate_restructured_data (data : Json) : Bool :=
  match data with
  | .obj fields =>
    if (alookup fields "document_type").isNone then false
    else if (alookup fields "extraction_date").isNone then false
    else
      match alookup fields "document_type" with
      | some (.str "absence_records") =>
        (match alookup fields "employees" with
         | some (.arr emps) => emps.all isAbsenceEmployeeValid
         | _ => false)
      | _ => true
  | _ => false

/-- Outcome of one completion request of the retry loop of
`restructure_data`: a transport-level failure (`requests.RequestException`,
including non-2xx raised by `raise_for_status`), a response whose text does
not parse as JSON (`json.JSONDecodeError` after code-fence stripping), or a
response parsing to a JSON object with the given fields. -/
inductive LLMAttempt where
  | transportError (msg : String)
  | badJson
  | goodJson (fields : List (String × Json))

/-- Whether an attempt fails to produce a parseable JSON object. -/
def attemptFails : LLMAttempt → Bool
  | .goodJson _ => false
  | _ => true

/-- The `restructuring_metadata` dict stamped onto a successful result. -/
def restructuringMetadata (model now original_file : String) : Json :=
  .obj [("restructured_by", .str "llm"),
        ("model_used", .str model),
        ("restructuring_date", .str now),
        ("original_file", .str original_file),
        ("anonymization_preserved", .bool true)]

/-- `restructured_data['restructuring_metadata'] = {...}` on the parsed
object. -/
def stampMetadata (fields : List (String × Json)) (model now file : String) : Json :=
  .obj (aset fields "restructuring_metadata" (restructuringMetadata model now file))

/-- The `for attempt in range(max_retries)` loop of `restructure_data`.
`k` is the index of the current attempt, `remaining` the number of loop
iterations left (`maxRetries - k` at every call). The second component
counts the completion requests issued. Falling out of the loop (only
possible when it never runs) raises the final `LLMError`. -/
def restructureLoop (model now file : String) (attempts : Nat → LLMAttempt)
    (maxRetries : Nat) : Nat → Nat → Except String Json × Nat
  | _, 0 => (.error "Unexpected error in restructuring process", 0)
  | k, remaining + 1 =>
    match attempts k with
    | .goodJson fields => (.ok (stampMetadata fields model now file), 1)
    | .transportError e =>
      if k < maxRetries - 1 then
        ((restructureLoop model now file attempts maxRetries (k + 1) remaining).1,
         (restructureLoop model now file attempts maxRetries (k + 1) remaining).2 + 1)
      else
        (.error ("LLM service unavailable after " ++ toString maxRetries
          ++ " attempts: " ++ e), 1)
    | .badJson =>
      if k < maxRetries - 1 then
        ((restructureLoop model now file attempts maxRetries (k + 1) remaining).1,
         (restructureLoop model now file attempts maxRetries (k + 1) remaining).2 + 1)
      else
        (.error ("Failed to get valid JSON after " ++ toString maxRetries
          ++ " attempts"), 1)

/-- `LLMDataRestructurer.restructure_data` (default `max_retries = 3`),
instrumented with the number of completion requests issued.
`available` is the outcome of the `is_available` liveness probe;
`now` stands for `datetime.now().isoformat()` and the stamped
`original_file` is `anonymized_data.get('file_path', '')`. -/
def restructure_data (available : Bool) (model now : String)
    (anonymized_data : DocumentRecord) (attempts : Nat → LLMAttempt)
    (max_retries : Nat) : Except String Json × Nat :=
  if available then
    restructureLoop model now anonymized_data.file_path attempts
      max_retries 0 max_retries
  else
    (.error "LLM service not available. Check base_url configuration.", 0)

theorem restructureLoop_count_le (model now file : String)
    (attempts : Nat → LLMAttempt) (maxRetries : Nat) :
    ∀ remaining k,
      (restructureLoop model now file attempts maxRetries k remaining).2
        ≤ remaining := by
  intro remaining
  induction remaining with
  | zero => intro k; simp [restructureLoop]
  | succ m ih =>
    intro k
    simp only [restructureLoop]
    cases attempts k with
    | goodJson fields => simp
    | transportError e =>
      by_cases hk : k < maxRetries - 1
      · simp only [hk, if_true]
        have := ih (k + 1)
        omega
      · simp [hk]
    | badJson =>
      by_cases hk : k < maxRetries - 1
      · simp only [hk, if_true]
        have := ih (k + 1)
        omega
      · simp [hk]

theorem restructureLoop_first_success (model now file : String)
    (attempts : Nat → LLMAttempt) (maxRetries : Nat) :
    ∀ j remaining k fields, j < remaining →
      k + j ≤ maxRetries - 1 →
      (∀ i, i < j → attemptFails (attempts (k + i)) = true) →
      attempts (k + j) = .goodJson fields →
      restructureLoop model now file attempts maxRetries k remaining
        = (.ok (stampMetadata fields model now file), j + 1) := by
  intro j
  induction j with
  | zero =>
    intro remaining k fields hrem _ _ hgood
    cases remaining with
    | zero => omega
    | succ m =>
      rw [Nat.add_zero] at hgood
      simp [restructureLoop, hgood]
  | succ j ih =>
    intro remaining k fields hrem hbound hfail hgood
    cases remaining with
    | zero => omega
    | succ m =>
      have hf0 : attemptFails (attempts k) = true := by
        have := hfail 0 (by omega)
        rwa [Nat.add_zero] at this
      have hk : k < maxRetries - 1 := by omega
      have hrec := ih m (k + 1) fields (by omega) (by omega)
        (fun i hi => by
          have := hfail (i + 1) (by omega)
          rwa [show k + (i + 1) = k + 1 + i by omega] at this)
        (by rwa [show k + 1 + j = k + (j + 1) by omega])
      simp only [restructureLoop]
      cases hA : attempts k with
      | goodJson fields' => rw [hA] at hf0; simp [attemptFails] at hf0
      | transportError e =>
        simp only [hk, if_true, hrec]
      | badJson =>
        simp only [hk, if_true, hrec]

theorem restructureLoop_all_fail (model now file : String)
    (attempts : Nat → LLMAttempt) (maxRetries : Nat)
    (hall : ∀ i, i < maxRetries → attemptFails (attempts i) = true) :
    ∀ remaining k, remaining + k = maxRetries →
      ∃ e, restructureLoop model now file attempts maxRetries k remaining
        = (.error e, remaining) := by
  intro remaining
  induction remaining with
  | zero => intro k _; exact ⟨_, rfl⟩
  | succ m ih =>
    intro k hsum
    have hfk : attemptFails (attempts k) = true := hall k (by omega)
    simp only [restructureLoop]
    cases hA : attempts k with
    | goodJson fields => rw [hA] at hfk; simp [attemptFails] at hfk
    | transportError e =>
      by_cases hk : k < maxRetries - 1
      · obtain ⟨e', he'⟩ := ih (k + 1) (by omega)
        simp only [hk, if_true, he']
        exact ⟨e', rfl⟩
      · have hm : m = 0 := by omega
        subst hm
        simp only [hk, if_false]
        exact ⟨_, rfl⟩
    | badJson =>
      by_cases hk : k < maxRetries - 1
      · obtain ⟨e', he'⟩ := ih (k + 1) (by omega)
        simp only [hk, if_true, he']
        exact ⟨e', rfl⟩
      · have hm : m = 0 := by omega
        subst hm
        simp only [hk, if_false]
        exact ⟨_, rfl⟩

/-- C7: the retry contract of `restructure_data`. At most `max_retries`
requests are ever issued; if the first `k` attempts fail (transport failure
or JSON parse failure) and attempt `k` (with `k < max_retries`) yields a
parseable JSON object, the loop returns that object immediately — stamped
with `restructuring_metadata` carrying `model_used`, `restructuring_date`,
`original_file` and `anonymization_preserved = true` — after exactly `k + 1`
requests; if all `max_retries` attempts fail, the call raises `LLMError`
after exactly `max_retries` requests; and an unavailable service raises
before any request. -/
theorem restructure_data_retry_contract (model now : String)
    (rec : DocumentRecord) (attempts : Nat → LLMAttempt) (n : Nat) :
    (restructure_data true model now rec attempts n).2 ≤ n
    ∧ (∀ k fields, k < n →
        (∀ i, i < k → attemptFails (attempts i) = true) →
        attempts k = .goodJson fields →
        restructure_data true model now rec attempts n
          = (.ok (stampMetadata fields model now rec.file_path), k + 1))
    ∧ ((∀ i, i < n → attemptFails (attempts i) = true) →
        ∃ e, restructure_data true model now rec attempts n = (.error e, n))
    ∧ (restructure_data false model now rec attempts n).2 = 0 := by
  refine ⟨?_, ?_, ?_, rfl⟩
  · simp only [restructure_data, if_true]
    exact restructureLoop_count_le model now rec.file_path attempts n n 0
  · intro k fields hk hfail hgood
    simp only [restructure_data, if_true]
    exact restructureLoop_first_success model now rec.file_path attempts n
      k n 0 fields hk (by omega)
      (fun i hi => by simpa using hfail i hi) (by simpa using hgood)
  · intro hall
    simp only [restructure_data, if_true]
    exact restructureLoop_all_fail model now rec.file_path attempts n hall n 0
      (by omega)

def c7fields : List (String × Json) :=
  [("document_type", Json.str "other"), ("extraction_date", Json.str "2024-01-01")]

def c7attempts : Nat → LLMAttempt := fun i =>
  if i = 2 then .goodJson c7fields else .badJson

theorem restructure_data_retry_contract_witness :
    restructure_data true "phi-3-mini-4k-instruct" "2024-01-01T00:00:00"
        c3rec c7attempts 3
      = (.ok (stampMetadata c7fields "phi-3-mini-4k-instruct"
          "2024-01-01T00:00:00" "demo.pdf"), 3)
    ∧ (restructure_data true "phi-3-mini-4k-instruct" "2024-01-01T00:00:00"
        c3rec c7attempts 3).2 ≤ 3 := by
  obtain ⟨h1, h2, h3, h4⟩ := restructure_data_retry_contract
    "phi-3-mini-4k-instruct" "2024-01-01T00:00:00" c3rec c7attempts 3
  exact ⟨h2 2 c7fields (by decide) (by decide) rfl, h1⟩

/-! ## The Pipeline Orchestrator (`document_processor.py`) -/

/-- Outcomes and availability of the collaborators invoked by
`process_document` for one document: the extractor result, the anonymizer
(availability and traversal outcome) and the restructurer (availability and
call outcome). `validate_restructured_data` and `prepare_data_for_llm` are
in-repository code and are called directly. -/
structure Collaborators where
  extract : Except String DocumentRecord
  anonymizerAvailable : Bool
  anonymizeContent : DocumentRecord → Except String DocumentRecord
  restructurerAvailable : Bool
  restructureData : DocumentRecord → Except String Json

/-- `DocumentProcessor.processing_stats`. -/
structure ProcessingStats where
  files_processed : Nat
  extraction_errors : Nat
  anonymization_errors : Nat
  restructuring_errors : Nat
  last_processed : Option String
deriving DecidableEq, Repr

def initProcessingStats : ProcessingStats :=
  { files_processed := 0, extraction_errors := 0, anonymization_errors := 0,
    restructuring_errors := 0, last_processed := none }

/-- A `processing_result` dict; `data` is `None` only before extraction and
`restructured_data` is present (`some`) only after validated
restructuring. -/
structure ProcessingResult where
  file_path : String
  processing_timestamp : String
  phases_completed : List String
  errors : List String
  warnings : List String
  data : Option DocumentRecord
  restructured_data : Option Json

/-- The value of `processing_result['data']` after the anonymization phase:
the anonymized record when the phase ran and succeeded, the extraction
record otherwise. -/
def dataAfterAnonymization (c : Collaborators) (anonymize : Bool)
    (extraction_results : DocumentRecord) : DocumentRecord :=
  if anonymize then
    if c.anonymizerAvailable then
      match c.anonymizeContent extraction_results with
      | .ok anonymized => anonymized
      | .error _ => extraction_results
    else extraction_results
  else extraction_results

/-- The data handed to the Restructuring Client: sanitized by
`prepare_data_for_llm` exactly when `anonymize and
self.anonymizer.is_available()`. -/
def llmInputData (c : Collaborators) (anonymize : Bool)
    (extraction_results : DocumentRecord) : DocumentRecord :=
  if anonymize && c.anonymizerAvailable then
    prepare_data_for_llm (dataAfterAnonymization c anonymize extraction_results)
  else dataAfterAnonymization c anonymize extraction_results

/-- The returned `processing_result` of `DocumentProcessor.process_document`
(or the raised `ProcessingError` on a fatal extraction failure). The running
statistics never influence the result; their update is
`process_document_statsUpdate`. -/
def process_document_result (now file_path : String) (c : Collaborators)
    (anonymize restructure : Bool) : Except String ProcessingResult :=
  match c.extract with
  | .error e => .error ("Extraction failed: " ++ e)
  | .ok extraction_results =>
    let r1 : ProcessingResult :=
      { file_path := file_path, processing_timestamp := now,
        phases_completed := ["extraction"], errors := [], warnings := [],
        data := some extraction_results, restructured_data := none }
    let r2 : ProcessingResult :=
      if anonymize then
        if c.anonymizerAvailable then
          match c.anonymizeContent extraction_results with
          | .ok anonymized =>
            { r1 with
                phases_completed := r1.phases_completed ++ ["anonymization"],
                data := some anonymized }
          | .error e =>
            { r1 with
                errors := r1.errors ++ ["Anonymization failed: " ++ e],
                warnings := r1.warnings
                  ++ ["Continuing with non-anonymized data"] }
        else
          { r1 with warnings := r1.warnings
              ++ ["Anonymization not available (spaCy model not loaded)"] }
      else r1
    let r3 : ProcessingResult :=
      if restructure then
        if c.restructurerAvailable then
          match c.restructureData (llmInputData c anonymize extraction_results) with
          | .ok restructured =>
            if validate_restructured_data restructured then
              { r2 with
                  phases_completed := r2.phases_completed ++ ["restructuring"],
                  restructured_data := some restructured }
            else
              { r2 with warnings := r2.warnings
                  ++ ["LLM restructuring produced invalid data structure"] }
          | .error e =>
            { r2 with
                errors := r2.errors ++ ["LLM restructuring failed: " ++ e],
                warnings := r2.warnings
                  ++ ["Continuing without restructured data"] }
        else
          { r2 with warnings := r2.warnings
              ++ ["LLM restructuring not available (service unavailable)"] }
      else r2
    .ok r3

/-- The update of `processing_stats` performed by one `process_document`
call: per-phase error counters along the way, and `files_processed` /
`last_processed` only when the call returns (a fatal extraction failure
raises before reaching that update). -/
def process_document_statsUpdate (now : String) (c : Collaborators)
    (anonymize restructure : Bool) (stats : ProcessingStats) :
    ProcessingStats :=
  match c.extract with
  | .error _ =>
    { stats with extraction_errors := stats.extraction_errors + 1 }
  | .ok extraction_results =>
    let stats2 : ProcessingStats :=
      if anonymize then
        if c.anonymizerAvailable then
          match c.anonymizeContent extraction_results with
          | .ok _ => stats
          | .error _ =>
            { stats with
                anonymization_errors := stats.anonymization_errors + 1 }
        else stats
      else stats
    let stats3 : ProcessingStats :=
      if restructure then
        if c.restructurerAvailable then
          match c.restructureData (llmInputData c anonymize extraction_results) with
          | .ok _ => stats2
          | .error _ =>
            { stats2 with
                restructuring_errors := stats2.restructuring_errors + 1 }
        else stats2
      else stats2
    { stats3 with files_processed := stats3.files_processed + 1,
                  last_processed := some now }

/-- `DocumentProcessor.process_document`: the fatal extraction failure is the
raised `ProcessingError` (`.error`); all other phase failures are recorded in
the result. The second component is the updated `processing_stats`. -/
def process_document (now file_path : String) (c : Collaborators)
    (anonymize restructure : Bool) (stats : ProcessingStats) :
    Except String ProcessingResult × ProcessingStats :=
  (process_document_result now file_path c anonymize restructure,
   process_document_statsUpdate now c anonymize restructure stats)

/-! ## C5: the shape of `phases_completed` -/

/-- C5, amended: whenever `process_document` returns a result, its
`phases_completed` is a subsequence (in the fixed order) of
`[extraction, anonymization, restructuring]` — under every combination of
the `anonymize`/`restructure` flags, collaborator availability and phase
failures. (It is not always a *prefix*: see the counterexample.) -/
theorem process_document_phases_sublist (now p : String) (c : Collaborators)
    (a rf : Bool) (stats : ProcessingStats) (r : ProcessingResult)
    (h : (process_document now p c a rf stats).1 = .ok r) :
    r.phases_completed.Sublist ["extraction", "anonymization", "restructuring"] := by
  cases hE : c.extract with
  | error e => simp [process_document, process_document_result, hE] at h
  | ok d =>
    simp only [process_document, process_document_result, hE] at h
    rw [Except.ok.injEq] at h
    subst h
    repeat' split
    all_goals simp only [List.cons_append, List.nil_append]
    all_goals decide

def c5json : Json :=
  .obj [("document_type", .str "other"), ("extraction_date", .str "2024-01-01")]

def c5collab : Collaborators :=
  { extract := .ok c3rec, anonymizerAvailable := true,
    anonymizeContent := fun d => .ok d, restructurerAvailable := true,
    restructureData := fun _ => .ok c5json }

/-- C5, counterexample: with anonymization disabled and restructuring
enabled and succeeding, `phases_completed` is
`["extraction", "restructuring"]`, which is *not* a prefix of
`[extraction, anonymization, restructuring]`. -/
theorem process_document_phases_counterexample :
    (match (process_document "t0" "f.pdf" c5collab false true
        initProcessingStats).1 with
     | .ok r => r.phases_completed
     | .error _ => []) = ["extraction", "restructuring"]
    ∧ ¬ (["extraction", "restructuring"]
          <+: ["extraction", "anonymization", "restructuring"]) :=
  ⟨rfl, by decide⟩

def c5result : ProcessingResult :=
  { file_path := "f.pdf", processing_timestamp := "t0",
    phases_completed := ["extraction", "restructuring"], errors := [],
    warnings := [], data := some c3rec, restructured_data := some c5json }

theorem process_document_phases_sublist_witness :
    c5result.phases_completed.Sublist
      ["extraction", "anonymization", "restructuring"] :=
  process_document_phases_sublist "t0" "f.pdf" c5collab false true
    initProcessingStats c5result rfl

/-! ## C6: the batch contract of `process_multiple_documents` -/

/-- The result entry of `process_document` does not depend on the running
statistics (only the returned statistics do). -/
theorem process_document_fst_stats_irrel (now p : String) (c : Collaborators)
    (a rf : Bool) (s s' : ProcessingStats) :
    (process_document now p c a rf s).1 = (process_document now p c a rf s').1 := rfl

/-- A returned result always carries the `file_path` it was called with. -/
theorem process_document_file_path (now p : String) (c : Collaborators)
    (a rf : Bool) (stats : ProcessingStats) (r : ProcessingResult)
    (h : (process_document now p c a rf stats).1 = .ok r) :
    r.file_path = p := by
  cases hE : c.extract with
  | error e => simp [process_document, process_document_result, hE] at h
  | ok d =>
    simp only [process_document, process_document_result, hE] at h
    rw [Except.ok.injEq] at h
    subst h
    repeat' split
    all_goals rfl

/-- `DocumentProcessor.process_multiple_documents`: the `for` loop over the
file paths; a raised `ProcessingError` is converted to an error entry and
the loop continues. -/
def process_multiple_documents (now : String) (a rf : Bool) :
    List (String × Collaborators) → ProcessingStats →
      List ProcessingResult × ProcessingStats
  | [], stats => ([], stats)
  | (p, c) :: rest, stats =>
    let step := process_document now p c a rf stats
    let entry :=
      match step.1 with
      | .ok r => r
      | .error e =>
        { file_path := p, processing_timestamp := now, phases_completed := [],
          errors := [e], warnings := [], data := none,
          restructured_data := none }
    let restRes := process_multiple_documents now a rf rest step.2
    (entry :: restRes.1, restRes.2)

/-- The batch entry for one input document (well defined thanks to
`process_document_fst_stats_irrel`). -/
def batchEntry (now : String) (a rf : Bool) (pc : String × Collaborators) :
    ProcessingResult :=
  match (process_document now pc.1 pc.2 a rf initProcessingStats).1 with
  | .ok r => r
  | .error e =>
    { file_path := pc.1, processing_timestamp := now, phases_completed := [],
      errors := [e], warnings := [], data := none, restructured_data := none }

theorem process_multiple_documents_map (now : String) (a rf : Bool) :
    ∀ (docs : List (String × Collaborators)) (stats : ProcessingStats),
      (process_multiple_documents now a rf docs stats).1
        = docs.map (batchEntry now a rf) := by
  intro docs
  induction docs with
  | nil => intro stats; rfl
  | cons pc rest ih =>
    intro stats
    obtain ⟨p, c⟩ := pc
    simp only [process_multiple_documents, List.map_cons]
    rw [ih]
    rfl

/-- C6: batch processing of `N` documents is total (the function returns a
plain list), yields exactly `N` result entries in input order (entry `i`
carries input `i`'s file path); a per-document fatal failure becomes an
entry with empty `phases_completed` and the error message as its only
`errors` element, and a successful document's entry is exactly its
`process_document` result. -/
theorem process_multiple_documents_contract (now : String) (a rf : Bool)
    (docs : List (String × Collaborators)) (stats : ProcessingStats) :
    (process_multiple_documents now a rf docs stats).1.length = docs.length
    ∧ ∀ i pc, docs.get? i = some pc →
        ∃ r, (process_multiple_documents now a rf docs stats).1.get? i = some r
          ∧ r.file_path = pc.1
          ∧ (∀ e, (process_document now pc.1 pc.2 a rf
                initProcessingStats).1 = .error e →
              r.phases_completed = [] ∧ r.errors = [e])
          ∧ (∀ res, (process_document now pc.1 pc.2 a rf
                initProcessingStats).1 = .ok res →
              r = res) := by
  rw [process_multiple_documents_map]
  constructor
  · exact List.length_map docs _
  · intro i pc hpc
    refine ⟨batchEntry now a rf pc, ?_, ?_, ?_, ?_⟩
    · rw [List.get?_map, hpc]
      rfl
    · cases hr : (process_document now pc.1 pc.2 a rf initProcessingStats).1 with
      | ok res =>
        simp only [batchEntry, hr]
        exact process_document_file_path now pc.1 pc.2 a rf
          initProcessingStats res hr
      | error e => simp [batchEntry, hr]
    · intro e he
      simp [batchEntry, he]
    · intro res hres
      simp [batchEntry, hres]

def c6collabBad : Collaborators :=
  { extract := .error "corrupt file", anonymizerAvailable := false,
    anonymizeContent := fun d => .ok d, restructurerAvailable := false,
    restructureData := fun _ => .ok c5json }

def c6docs : List (String × Collaborators) :=
  [("a.pdf", c5collab), ("b.pdf", c6collabBad), ("c.pdf", c5collab)]

def resultSummary (r : ProcessingResult) : String × List String × List String :=
  (r.file_path, r.phases_completed, r.errors)

theorem process_multiple_documents_contract_witness :
    ((process_multiple_documents "t0" true true c6docs
        initProcessingStats).1.get? 1).map resultSummary
      = some ("b.pdf", [], ["Extraction failed: corrupt file"])
    ∧ (process_multiple_documents "t0" true true c6docs
        initProcessingStats).1.length = 3 := by
  obtain ⟨hlen, hidx⟩ := process_multiple_documents_contract "t0" true true
    c6docs initProcessingStats
  obtain ⟨r, hr, hfp, herr, hok⟩ := hidx 1 ("b.pdf", c6collabBad) rfl
  obtain ⟨hph, hes⟩ := herr "Extraction failed: corrupt file" rfl
  constructor
  · rw [hr]
    simp [resultSummary, hfp, hph, hes]
  · exact hlen.trans rfl

/-! ## C9: the statistics update of `process_document` -/

/-- Whether a collaborator call raised. -/
def exceptFailed {ε α : Type} : Except ε α → Bool
  | .error _ => true
  | .ok _ => false

/-- C9, amended: after a `process_document` call that returns a result
(normally or with non-fatal errors), `files_processed` has increased by
exactly one, `last_processed` is stamped, `extraction_errors` is unchanged,
and the anonymization/restructuring error counters have increased by one
exactly when the respective phase ran and failed. After a call that aborts
with a fatal extraction failure, `files_processed` is *not* increased: only
`extraction_errors` increases by one. -/
theorem process_document_stats_accounting (now p : String) (c : Collaborators)
    (a rf : Bool) (stats : ProcessingStats) :
    (∀ r, (process_document now p c a rf stats).1 = .ok r →
      (process_document now p c a rf stats).2.files_processed
        = stats.files_processed + 1
      ∧ (process_document now p c a rf stats).2.extraction_errors
        = stats.extraction_errors
      ∧ (process_document now p c a rf stats).2.last_processed = some now
      ∧ (∀ d, c.extract = .ok d →
          (process_document now p c a rf stats).2.anonymization_errors
            = stats.anonymization_errors
              + (if a && c.anonymizerAvailable
                    && exceptFailed (c.anonymizeContent d) then 1 else 0)
          ∧ (process_document now p c a rf stats).2.restructuring_errors
            = stats.restructuring_errors
              + (if rf && c.restructurerAvailable
                    && exceptFailed (c.restructureData
                        (llmInputData c a d)) then 1 else 0)))
    ∧ (∀ e, (process_document now p c a rf stats).1 = .error e →
        (process_document now p c a rf stats).2
          = { stats with extraction_errors := stats.extraction_errors + 1 }) := by
  constructor
  · intro r _
    cases hE : c.extract with
    | error e0 =>
      exfalso
      have hr := ‹(process_document now p c a rf stats).1 = .ok r›
      simp [process_document, process_document_result, hE] at hr
    | ok d =>
      refine ⟨?_, ?_, ?_, ?_⟩
      · simp only [process_document, process_document_statsUpdate, hE]
        repeat' split
        all_goals rfl
      · simp only [process_document, process_document_statsUpdate, hE]
        repeat' split
        all_goals rfl
      · simp [process_document, process_document_statsUpdate, hE]
      · intro d' hd'
        injection hd' with hd'
        subst hd'
        constructor
        · simp only [process_document, process_document_statsUpdate, hE]
          cases a with
          | false =>
            simp only [Bool.false_and, Bool.and_false, if_false,
              Bool.false_eq_true, Nat.add_zero]
            repeat' split
            all_goals rfl
          | true =>
            cases hv : c.anonymizerAvailable with
            | false =>
              simp only [hv, Bool.true_and, Bool.false_and, Bool.and_false,
                Bool.false_eq_true, if_false, Nat.add_zero]
              repeat' split
              all_goals rfl
            | true =>
              cases hA : c.anonymizeContent d with
              | ok d1 =>
                simp only [hv, hA, exceptFailed, Bool.true_and,
                  Bool.and_false, Bool.false_eq_true, if_false, Nat.add_zero]
                repeat' split
                all_goals rfl
              | error e1 =>
                simp only [hv, hA, exceptFailed, Bool.true_and,
                  Bool.and_true, if_true]
                repeat' split
                all_goals rfl
        · simp only [process_document, process_document_statsUpdate, hE]
          cases rf with
          | false =>
            simp only [Bool.false_and, Bool.and_false, if_false,
              Bool.false_eq_true, Nat.add_zero]
            repeat' split
            all_goals rfl
          | true =>
            cases hw : c.restructurerAvailable with
            | false =>
              simp only [hw, Bool.true_and, Bool.false_and, Bool.and_false,
                Bool.false_eq_true, if_false, Nat.add_zero]
              repeat' split
              all_goals rfl
            | true =>
              cases hR : c.restructureData (llmInputData c a d) with
              | ok j =>
                simp only [hw, hR, exceptFailed, Bool.true_and,
                  Bool.and_false, Bool.false_eq_true, if_false, Nat.add_zero]
                repeat' split
                all_goals rfl
              | error e1 =>
                simp only [hw, hR, exceptFailed, Bool.true_and,
                  Bool.and_true, if_true]
                repeat' split
                all_goals rfl
  · intro e he
    cases hE : c.extract with
    | ok d => simp [process_document, process_document_result, hE] at he
    | error e0 => simp only [process_document, process_document_statsUpdate, hE]

def c9collab : Collaborators :=
  { extract := .error "boom", anonymizerAvailable := true,
    anonymizeContent := fun d => .ok d, restructurerAvailable := true,
    restructureData := fun _ => .ok c5json }

/-- C9, counterexample: a call that aborts with a fatal extraction failure
leaves `files_processed` unchanged — it does not increase by one, so the
counter update is not independent of success. -/
theorem process_document_stats_counterexample :
    (process_document "t0" "f.pdf" c9collab true true
        initProcessingStats).1 = .error "Extraction failed: boom"
    ∧ (process_document "t0" "f.pdf" c9collab true true
        initProcessingStats).2.files_processed
      = initProcessingStats.files_processed
    ∧ (process_document "t0" "f.pdf" c9collab true true
        initProcessingStats).2.files_processed
      ≠ initProcessingStats.files_processed + 1 :=
  ⟨rfl, rfl, by decide⟩

def c9collabW : Collaborators :=
  { extract := .ok c3rec, anonymizerAvailable := true,
    anonymizeContent := fun _ => .error "spacy exploded",
    restructurerAvailable := true,
    restructureData := fun _ => .ok c5json }

def c9resultW : ProcessingResult :=
  { file_path := "f.pdf", processing_timestamp := "t0",
    phases_completed := ["extraction", "restructuring"],
    errors := ["Anonymization failed: spacy exploded"],
    warnings := ["Continuing with non-anonymized data"],
    data := some c3rec, restructured_data := some c5json }

theorem process_document_stats_accounting_witness :
    (process_document "t0" "f.pdf" c9collabW true true
        initProcessingStats).2.files_processed = 1
    ∧ (process_document "t0" "f.pdf" c9collabW true true
        initProcessingStats).2.anonymization_errors = 1
    ∧ (process_document "t0" "f.pdf" c9collabW true true
        initProcessingStats).2.restructuring_errors = 0 := by
  obtain ⟨hok, herr⟩ := process_document_stats_accounting "t0" "f.pdf"
    c9collabW true true initProcessingStats
  obtain ⟨h1, h2, h3, h4⟩ := hok c9resultW rfl
  obtain ⟨ha, hr⟩ := h4 c3rec rfl
  exact ⟨h1, ha, hr⟩

def c4t1 : List Char := "Max war da.".data

def c4t2 : List Char := "Und Max auch.".data

def c4ner : Ner := fun t =>
  if t = c4t1 then .ok [⟨0, 3, "Max".data, "PER".data⟩]
  else .ok [⟨4, 7, "Max".data, "PER".data⟩]

theorem anonymize_text_label_reuse_witness :
    (anonymize_text (some c4ner) initMapperState c4t1).2.2
      = [("PER_1".data, "Max".data)]
    ∧ (anonymize_text (some c4ner)
        (anonymize_text (some c4ner) initMapperState c4t1).1 c4t2).2.2
      = [("PER_1".data, "Max".data)]
    ∧ (anonymize_text (some c4ner)
        (anonymize_text (some c4ner) initMapperState c4t1).1
          c4t2).1.session_stats.unique_entities
      = initMapperState.session_stats.unique_entities + 1 := by
  obtain ⟨h1, h2, h3, h4⟩ := anonymize_text_label_reuse initMapperState c4ner
    c4t1 c4t2 "Max".data "PER".data "PER".data 0 3 4 7
    rfl rfl rfl (by decide) (by decide)
  exact ⟨h1, h2, h4⟩
